import Mathlib

/-!
Shallow embedding of the nouzdb storage engine (an append-only LSM key-value
store) and proofs about its specification.

Keys and values are opaque byte strings, modelled as `List Nat` whose
elements stand for the bytes.  Rust `&[u8]` comparison is the lexicographic
order, which coincides with Mathlib's `List.Lex (· < ·)` linear order on
`List Nat`.

Each definition is translated from one function of the Rust source:
* `crcUpdate`, `digestKV` — the `Crc<u32>` digest with the `CRC_32_AIXM`
  parameters (polynomial `0x814141AB`, init `0`, no reflection, no xorout)
  used in `src/memtable.rs`;
* `Memtable.read_record` / `Memtable.parse_record` — the log record codec
  (`src/memtable.rs` lines 43–67);
* `Memtable.set`, `Memtable.get`, `Memtable.force_switch`,
  `Memtable.finalize_switch` — the memtable operations
  (`src/memtable.rs`); I/O outcomes (append ok, flush ok, open ok) are
  passed in as explicit booleans;
* `Memtable.build_tree_from_list` — log replay (`build_tree_from_path`,
  `src/memtable.rs` lines 69–110), the reader's item stream being passed
  in as data; its `none` result models the `Bytes::get_u32_le` panic on a
  record whose CRC field is shorter than four bytes;
* `Memtable.selectLogs` — the log-selection loop of `Memtable::new`
  (`src/memtable.rs` lines 127–148);
* `Segment.initialize_index`, `Segment.get` — the sparse index and point
  lookup (`src/segment.rs` lines 67–96 and 128–156), the segment file
  being modelled by its list of records;
* `Database.merge_segments` — one k-way merge cycle
  (`src/database.rs` lines 261–308), on in-memory record streams.
-/

namespace Nouzdb

/-- A byte string: Rust `Bytes` / `&[u8]`.  Elements stand for bytes and are
`< 256` wherever that matters. -/
abbrev Bytes := List Nat

/-! ## CRC-32/AIXM

`Crc::<u32>::new(&CRC_32_AIXM)`: width 32, polynomial `0x814141AB`,
init `0x00000000`, not reflected, xorout `0x00000000`.  The digest processes
one input bit at a time, MSB first. -/

/-- The CRC-32/AIXM generator polynomial. -/
def CRC32_AIXM_POLY : Nat := 0x814141AB

/-- One shift step of the MSB-first CRC register, truncated to 32 bits. -/
def crcShift (c : Nat) : Nat :=
  if c.testBit 31 then ((c * 2) ^^^ CRC32_AIXM_POLY) % 2 ^ 32
  else (c * 2) % 2 ^ 32

/-- Feed one byte into the CRC register (xor into the top byte, then eight
shift steps). -/
def crcByte (c b : Nat) : Nat :=
  crcShift^[8] ((c ^^^ b * 2 ^ 24) % 2 ^ 32)

/-- `digest.update(data)`: fold the bytes into the register. -/
def crcUpdate (c : Nat) (data : Bytes) : Nat :=
  data.foldl crcByte c

/-- The digest of `Memtable::{read_record, parse_record}`:
`digest.update(key); digest.update(value); digest.finalize()`
(finalize is the identity: no reflection, no xorout). -/
def digestKV (key value : Bytes) : Nat :=
  crcUpdate (crcUpdate 0 key) value

theorem crcShift_lt (c : Nat) : crcShift c < 2 ^ 32 := by
  unfold crcShift
  split <;> exact Nat.mod_lt _ (by norm_num)

theorem crcByte_lt (c b : Nat) : crcByte c b < 2 ^ 32 := by
  unfold crcByte
  have h : ∀ n x, x < 2 ^ 32 → crcShift^[n] x < 2 ^ 32 := by
    intro n
    induction n with
    | zero => intro x hx; simpa using hx
    | succ n ih =>
      intro x hx
      rw [Function.iterate_succ_apply]
      exact ih _ (crcShift_lt x)
  exact h 8 _ (Nat.mod_lt _ (by norm_num))

theorem crcUpdate_lt (c : Nat) (data : Bytes) (hc : c < 2 ^ 32) :
    crcUpdate c data < 2 ^ 32 := by
  induction data generalizing c with
  | nil => simpa [crcUpdate] using hc
  | cons b bs ih => simpa [crcUpdate, List.foldl_cons] using ih (crcByte c b) (crcByte_lt c b)

theorem digestKV_lt (key value : Bytes) : digestKV key value < 2 ^ 32 :=
  crcUpdate_lt _ _ (crcUpdate_lt _ _ (by norm_num))

/-- The spec computes the digest over the concatenation `key ‖ value`; the
source updates the digest with the two parts in turn.  These agree. -/
theorem digestKV_eq_append (key value : Bytes) :
    digestKV key value = crcUpdate 0 (key ++ value) := by
  simp [digestKV, crcUpdate, List.foldl_append]

/-! ## u32 little-endian bytes -/

/-- `u32::to_le_bytes` of a value `< 2 ^ 32`. -/
def toLeBytes (c : Nat) : Bytes :=
  [c % 256, c / 256 % 256, c / 2 ^ 16 % 256, c / 2 ^ 24 % 256]

/-- `Bytes::get_u32_le`: read the first four bytes as a little-endian u32.
This agrees with the source exactly on inputs of length at least four.  On
shorter inputs the source *panics*; that panic is modelled explicitly by
`Memtable.crcFieldPanics`, which guards the one call site where a short
CRC field is reachable (log replay, `Memtable.build_tree_go`) — the value
this function gives on short inputs is never relied upon. -/
def getU32le (bs : Bytes) : Nat :=
  bs.getD 0 0 + 256 * bs.getD 1 0 + 2 ^ 16 * bs.getD 2 0 + 2 ^ 24 * bs.getD 3 0

theorem getU32le_toLeBytes (c : Nat) (hc : c < 2 ^ 32) :
    getU32le (toLeBytes c) = c := by
  simp only [toLeBytes, getU32le, List.getD_cons_zero, List.getD_cons_succ]
  omega

/-! ## Log record codec -/

/-- A CSV `ByteRecord`: a list of byte-string fields. -/
abbrev ByteRecord := List Bytes

namespace Memtable

/-- `Memtable::parse_record`: a three-field record
`(crc32_le_bytes, key, value)`. -/
def parse_record (key value : Bytes) : ByteRecord :=
  [toLeBytes (digestKV key value), key, value]

/-- `Memtable::read_record`: extract fields 0, 1, 2 (`None` when a field is
missing), read field 0 as a little-endian u32, recompute the digest over
key and value, and return the pair iff the digests match. -/
def read_record (record : ByteRecord) : Option (Bytes × Bytes) := do
  let f0 ← record.get? 0
  let key ← record.get? 1
  let value ← record.get? 2
  let crc := getU32le f0
  let check := digestKV key value
  if check = crc then some (key, value) else none

theorem read_record_parse_record (key value : Bytes) :
    read_record (parse_record key value) = some (key, value) := by
  simp [read_record, parse_record, Option.bind_eq_bind,
    getU32le_toLeBytes _ (digestKV_lt key value)]

end Memtable

/-- Flip bit `i` of byte `j` of a byte string. -/
def flipBit (bs : Bytes) (j i : Nat) : Bytes :=
  bs.set j ((bs.getD j 0) ^^^ 2 ^ i)

theorem getU32le_flipBit_ne (c j i : Nat) (hj : j < 4) (hi : i < 8) :
    getU32le (flipBit (toLeBytes c) j i) ≠ getU32le (toLeBytes c) := by
  have hxor : ∀ b : Nat, b < 256 → b ^^^ 2 ^ i ≠ b ∧ b ^^^ 2 ^ i < 256 := by
    intro b hb
    constructor
    · intro h
      have := congrArg (Nat.testBit · i) h
      simp only [Nat.testBit_xor, Nat.testBit_two_pow_self] at this
      cases hbit : b.testBit i <;> simp [hbit] at this
    · have h2 : (2 : Nat) ^ i < 2 ^ 8 := Nat.pow_lt_pow_right (by norm_num) hi
      have := Nat.xor_lt_two_pow (n := 8) (by simpa using hb) (by simpa using h2)
      simpa using this
  have hb0 : c % 256 < 256 := Nat.mod_lt _ (by norm_num)
  have hb1 : c / 256 % 256 < 256 := Nat.mod_lt _ (by norm_num)
  have hb2 : c / 2 ^ 16 % 256 < 256 := Nat.mod_lt _ (by norm_num)
  have hb3 : c / 2 ^ 24 % 256 < 256 := Nat.mod_lt _ (by norm_num)
  interval_cases j
  · have h := hxor (c % 256) hb0
    simp only [flipBit, toLeBytes, List.getD_cons_zero, List.getD_cons_succ,
      List.set_cons_zero, List.set_cons_succ, getU32le]
    omega
  · have h := hxor (c / 256 % 256) hb1
    simp only [flipBit, toLeBytes, List.getD_cons_zero, List.getD_cons_succ,
      List.set_cons_zero, List.set_cons_succ, getU32le]
    omega
  · have h := hxor (c / 2 ^ 16 % 256) hb2
    simp only [flipBit, toLeBytes, List.getD_cons_zero, List.getD_cons_succ,
      List.set_cons_zero, List.set_cons_succ, getU32le]
    omega
  · have h := hxor (c / 2 ^ 24 % 256) hb3
    simp only [flipBit, toLeBytes, List.getD_cons_zero, List.getD_cons_succ,
      List.set_cons_zero, List.set_cons_succ, getU32le]
    omega

/-- C8.  Round trip: decoding an encoded log record yields the pair back,
for all byte strings (empty value allowed); and a record whose 4-byte CRC
field has any single bit flipped is rejected by `read_record`. -/
theorem record_codec_roundtrip_and_crc_rejection :
    (∀ key value : Bytes,
      Memtable.read_record (Memtable.parse_record key value) = some (key, value)) ∧
    (∀ (key value : Bytes) (j i : Nat), j < 4 → i < 8 →
      Memtable.read_record
        [flipBit (toLeBytes (digestKV key value)) j i, key, value] = none) := by
  constructor
  · exact Memtable.read_record_parse_record
  · intro key value j i hj hi
    have hne := getU32le_flipBit_ne (digestKV key value) j i hj hi
    rw [getU32le_toLeBytes _ (digestKV_lt key value)] at hne
    simp only [Memtable.read_record, List.get?_cons_zero, List.get?_cons_succ,
      Option.bind_eq_bind, Option.some_bind]
    rw [if_neg fun h => hne h.symm]

/-- Witness for C8 at concrete inputs. -/
theorem record_codec_roundtrip_and_crc_rejection_witness :
    Memtable.read_record (Memtable.parse_record [104, 101] [119]) = some ([104, 101], [119]) ∧
    Memtable.read_record
      [flipBit (toLeBytes (digestKV [104, 101] [119])) 1 3, [104, 101], [119]] = none :=
  ⟨record_codec_roundtrip_and_crc_rejection.1 [104, 101] [119],
    record_codec_roundtrip_and_crc_rejection.2 [104, 101] [119] 1 3 (by decide) (by decide)⟩

/-! ## The in-memory tree

`type Tree = BTreeMap<Bytes, Arc<Bytes>>`, modelled as an association list
kept sorted in strictly ascending (lexicographic) key order, which is the
B-tree's iteration order.  `treeInsert` returns the previous value of the
key, as `BTreeMap::insert` does. -/

/-- The memtable tree: a sorted association list from keys to values. -/
abbrev Tree := List (Bytes × Bytes)

/-- `BTreeMap::get`. -/
def treeGet : Tree → Bytes → Option Bytes
  | [], _ => none
  | (k, v) :: rest, key => if k = key then some v else treeGet rest key

/-- `BTreeMap::insert`: sorted insert, returning the replaced value if the
key was present. -/
def treeInsert : Tree → Bytes → Bytes → Tree × Option Bytes
  | [], key, value => ([(key, value)], none)
  | (k, v) :: rest, key, value =>
    if key < k then ((key, value) :: (k, v) :: rest, none)
    else if key = k then ((key, value) :: rest, some v)
    else
      ((k, v) :: (treeInsert rest key value).1, (treeInsert rest key value).2)

/-- `Σ (key.len + value.len)` over the entries of a tree. -/
def treeSize (t : Tree) : Nat :=
  (t.map fun kv => kv.1.length + kv.2.length).sum

theorem treeGet_treeInsert_self (t : Tree) (key value : Bytes) :
    treeGet (treeInsert t key value).1 key = some value := by
  induction t with
  | nil => simp [treeInsert, treeGet]
  | cons kv rest ih =>
    obtain ⟨k, v⟩ := kv
    by_cases h1 : key < k
    · simp [treeInsert, h1, treeGet]
    · by_cases h2 : key = k
      · simp [treeInsert, h1, h2, treeGet]
      · simp only [treeInsert, if_neg h1, if_neg h2]
        simp only [treeGet]
        rw [if_neg fun h => h2 h.symm]
        exact ih

/-! ## Memtable state and operations -/

/-- The error type of `Map` operations (`src/errors.rs`). -/
inductive MapError
  | WriteLog
  | KeyNotAllow
  | IoError
  | ReadLock
  | WriteLock
deriving DecidableEq, Repr

/-- The `Memtable` struct (`src/memtable.rs` lines 28–40).  The CSV log
writer is represented by the id of the file it appends to; the data
directory, suffix and `Crc` table carry no state. -/
structure Memtable where
  active_tree : Tree
  freeze_tree : Option Tree
  active_size : Nat
  active_log_id : Nat
  freeze_log_id : Option Nat
  switch_active_size : Nat
  /-- The log file the current CSV writer appends to. -/
  log_writer_id : Nat
deriving DecidableEq, Repr

namespace Memtable

/-- `impl Map for Memtable::set` (`src/memtable.rs` lines 270–287).
`append_ok` and `flush_ok` are the outcomes of `log.write_record` and
`log.flush`; either failure returns `WriteLog` before any field of `self`
is touched.  On success the pair is inserted and `active_size` updated
(`-= old_value.len()` on overwrite, `+= key_size` on fresh insert, always
`+= value_size`). -/
def set (m : Memtable) (key value : Bytes) (append_ok flush_ok : Bool) :
    Memtable × Option MapError :=
  if !append_ok then (m, some .WriteLog)
  else if !flush_ok then (m, some .WriteLog)
  else
    let key_size := key.length
    let value_size := value.length
    let (tree, old) := treeInsert m.active_tree key value
    let size :=
      match old with
      | some old_value => m.active_size - old_value.length
      | none => m.active_size + key_size
    ({ m with active_tree := tree, active_size := size + value_size }, none)

/-- `impl Get for Memtable::get` (`src/memtable.rs` lines 249–267): the
active tree first, then the frozen tree.  The source never produces an
error on this path. -/
def get (m : Memtable) (key : Bytes) : Option Bytes :=
  match treeGet m.active_tree key with
  | some v => some v
  | none =>
    match m.freeze_tree with
    | some tree => treeGet tree key
    | none => none

/-- `Memtable::force_switch` (`src/memtable.rs` lines 176–192).  The source
sets `freeze_log_id` and increments `active_log_id` BEFORE the fallible
`OpenOptions::open` of the new log file (`open_ok`); on failure those two
fields stay mutated.  On success the active tree is swapped into the
frozen slot and the writer replaced.  `active_size` is not reset anywhere
in this function.  Returns the frozen tree (the `RawSegment`) on success. -/
def force_switch (m : Memtable) (open_ok : Bool) :
    Memtable × Except MapError Tree :=
  let m1 := { m with
    freeze_log_id := some m.active_log_id
    active_log_id := m.active_log_id + 1 }
  if !open_ok then (m1, .error .IoError)
  else
    ({ m1 with
        freeze_tree := some m1.active_tree
        active_tree := []
        log_writer_id := m1.active_log_id },
      .ok m1.active_tree)

/-- `Memtable::finalize_switch` (`src/memtable.rs` lines 208–219): clear the
frozen tree and take `freeze_log_id`; the log file with that id is removed
from disk (returned here as the id of the deleted file). -/
def finalize_switch (m : Memtable) : Memtable × Option Nat :=
  ({ m with freeze_tree := none, freeze_log_id := none }, m.freeze_log_id)

end Memtable

/-- C2 (code bug).  The claim: after `force_switch` installs the fresh empty
active tree, `active_bytes` is 0.  The source never resets `active_size` in
`force_switch`: starting from a fresh memtable, one `set` of a one-byte key
and one-byte value makes `active_size = 2`, and after a successful
`force_switch` the active tree is empty while `active_size` is still 2, not
`treeSize [] = 0`. -/
theorem force_switch_does_not_reset_active_size :
    let m0 : Memtable :=
      { active_tree := [], freeze_tree := none, active_size := 0
        active_log_id := 1, freeze_log_id := none
        switch_active_size := 0, log_writer_id := 1 }
    let m1 := (m0.set [107] [118] true true).1
    let m2 := (m1.force_switch true).1
    m1.active_size = 2 ∧ m2.active_tree = [] ∧ m2.active_size = 2 ∧
      treeSize m2.active_tree = 0 ∧ m2.active_size ≠ treeSize m2.active_tree := by
  decide

/-- C5.  If the log append or the log flush fails during `Memtable::set`,
the call returns the `WriteLog` error and the returned state is exactly the
input state: no field (in particular neither the active tree nor
`active_size`) is mutated. -/
theorem set_log_failure_no_mutation (m : Memtable) (key value : Bytes)
    (append_ok flush_ok : Bool) (h : append_ok = false ∨ flush_ok = false) :
    m.set key value append_ok flush_ok = (m, some .WriteLog) := by
  rcases h with h | h <;> subst h
  · simp [Memtable.set]
  · cases append_ok <;> simp [Memtable.set]

/-- Witness for C5: a failing flush at a concrete state. -/
theorem set_log_failure_no_mutation_witness :
    let m0 : Memtable :=
      { active_tree := [], freeze_tree := none, active_size := 0
        active_log_id := 1, freeze_log_id := none
        switch_active_size := 0, log_writer_id := 1 }
    m0.set [1] [2] true false = (m0, some .WriteLog) :=
  set_log_failure_no_mutation _ [1] [2] true false (Or.inr rfl)

/-- C6 (code bug).  The claim: a failed `force_switch` leaves the memtable
unchanged.  The source mutates `freeze_log_id` and `active_log_id` before
the fallible file creation: when the open fails on a memtable with
`active_log_id = 1` and no frozen log, the result has `active_log_id = 2`
and `freeze_log_id = some 1` (the tree, size and writer fields are indeed
untouched). -/
theorem force_switch_failure_mutates_ids :
    let m0 : Memtable :=
      { active_tree := [([107], [118])], freeze_tree := none, active_size := 2
        active_log_id := 1, freeze_log_id := none
        switch_active_size := 0, log_writer_id := 1 }
    let r := m0.force_switch false
    r.2 = .error .IoError ∧
      (r.1).active_log_id = 2 ∧ (r.1).freeze_log_id = some 1 ∧ r.1 ≠ m0 ∧
      (r.1).active_tree = m0.active_tree ∧ (r.1).active_size = m0.active_size ∧
      (r.1).freeze_tree = m0.freeze_tree ∧ (r.1).log_writer_id = m0.log_writer_id :=
  ⟨rfl, rfl, rfl, by decide, rfl, rfl, rfl, rfl⟩

/-- C10.  The empty key is accepted: a `set` with the empty key (log append
and flush succeeding) returns no error and a subsequent `get` of the empty
key returns the value just written; and no invocation of `Memtable::set`
ever returns `MapError::KeyNotAllow` (the variant is declared in
`src/errors.rs` but constructed nowhere; `Memtable::get` is infallible). -/
theorem empty_key_accepted_and_key_not_allow_unused :
    (∀ (m : Memtable) (value : Bytes),
      (m.set [] value true true).2 = none ∧
      ((m.set [] value true true).1).get [] = some value) ∧
    (∀ (m : Memtable) (key value : Bytes) (append_ok flush_ok : Bool),
      (m.set key value append_ok flush_ok).2 ≠ some .KeyNotAllow) := by
  constructor
  · intro m value
    constructor
    · simp [Memtable.set]
    · simp [Memtable.set, Memtable.get, treeGet_treeInsert_self]
  · intro m key value append_ok flush_ok
    cases append_ok <;> cases flush_ok <;> simp [Memtable.set]

/-! ## Log replay (`Memtable::build_tree_from_path`) -/

/-- One read attempt of the CSV reader during log replay: either a record
was read (leaving the reader at byte `endPos`), or `read_byte_record`
returned an `Err`. -/
inductive ReadItem
  | ok (record : ByteRecord) (endPos : Nat)
  | readErr
deriving DecidableEq, Repr

namespace Memtable

/-- The panic domain of the CRC read in `Memtable::read_record`
(`src/memtable.rs` line 45):
`Bytes::copy_from_slice(record.get(0)?).get_u32_le()` panics when field 0
is *present* but shorter than four bytes (and this happens before fields 1
and 2 are consulted).  A record with no field 0 is a graceful decode
failure instead. -/
def crcFieldPanics (record : ByteRecord) : Bool :=
  match record.get? 0 with
  | some f0 => f0.length < 4
  | none => false

/-- The loop of `Memtable::build_tree_from_path` (`src/memtable.rs` lines
82–107) over the reader's stream of read results.  A successfully read
record whose CRC field is present but shorter than four bytes makes
`Bytes::get_u32_le` panic, aborting memtable construction — modelled as
`none`.  Otherwise the record is decoded with `read_record`: on success it
is inserted (with the same size bookkeeping as `set`) and `next_pos`
becomes the reader position; on decode failure (missing field or CRC
mismatch) the loop breaks.  An `Err` from `read_byte_record` is only
logged — the loop continues with the next read. -/
def build_tree_go : List ReadItem → Tree → Nat → Nat → Option (Tree × Nat × Nat)
  | [], tree, next_pos, size => some (tree, next_pos, size)
  | .readErr :: rest, tree, next_pos, size => build_tree_go rest tree next_pos size
  | .ok record endPos :: rest, tree, next_pos, size =>
    if crcFieldPanics record then none
    else
      match read_record record with
      | some (key, value) =>
        let key_size := key.length
        let value_size := value.length
        let t := (treeInsert tree key value).1
        let size' :=
          (match (treeInsert tree key value).2 with
            | some old_value => size - old_value.length
            | none => size + key_size) + value_size
        build_tree_go rest t endPos size'
      | none => some (tree, next_pos, size)

/-- `Memtable::build_tree_from_path`: replay from the beginning with an
empty tree, `next_pos = 0` and `size = 0`; `none` is the process panic on
a short CRC field. -/
def build_tree_from_list (items : List ReadItem) : Option (Tree × Nat × Nat) :=
  build_tree_go items [] 0 0

/-- The truncation `file.set_len(next_pos)` performed by `Memtable::new`
(`src/memtable.rs` lines 133–135) on the newest log: the file keeps exactly
its first `next_pos` bytes. -/
def truncateLog (raw : Bytes) (next_pos : Nat) : Bytes :=
  raw.take next_pos

end Memtable

/-- Whether a read item halts replay: a successfully read record that
either panics the CRC read (field 0 shorter than four bytes) or fails to
decode (missing field, or CRC mismatch). -/
def haltsReplay (it : ReadItem) : Bool :=
  match it with
  | .ok record _ => Memtable.crcFieldPanics record || (Memtable.read_record record).isNone
  | .readErr => false

/-- Whether the replay aborts with a panic: the first halting item (if
any) is a record whose present CRC field is shorter than four bytes. -/
def replayPanics (items : List ReadItem) : Bool :=
  match items.dropWhile fun it => !haltsReplay it with
  | .ok record _ :: _ => Memtable.crcFieldPanics record
  | _ => false

/-- Spec view of replay: the decoded records of the stream up to (not
including) the first halting record, read errors skipped, each paired
with the reader position just past it. -/
def replayPrefix (items : List ReadItem) : List ((Bytes × Bytes) × Nat) :=
  (items.takeWhile fun it => !haltsReplay it).filterMap fun it =>
    match it with
    | .ok record endPos => (Memtable.read_record record).map fun kv => (kv, endPos)
    | .readErr => none

/-- Spec view of the recovered tree: the decoded prefix inserted in order. -/
def replayTreeSpec (items : List ReadItem) : Tree :=
  (replayPrefix items).foldl (fun t r => (treeInsert t r.1.1 r.1.2).1) []

/-- Spec view of `next_pos`: the byte offset just past the last good
record, `0` if there is none. -/
def replayPosSpec (items : List ReadItem) : Nat :=
  ((replayPrefix items).map (·.2)).getLastD 0

/-- C7 (counterexample).  The claim says replay stops at the first
undecodable record, *including read errors*.  The source merely logs an
`Err` from `read_byte_record` and continues the loop: a stream consisting
of a read error followed by a well-formed record yields a tree containing
that record (and a truncation offset past it), where the claim demands an
empty tree and offset 0. -/
theorem replay_continues_after_read_error :
    Memtable.build_tree_from_list
        [.readErr, .ok (Memtable.parse_record [107] [118]) 10] =
      some ([([107], [118])], 10, 2) := by
  decide

theorem build_tree_go_cons_err (rest : List ReadItem) (tree : Tree) (next_pos size : Nat) :
    Memtable.build_tree_go (.readErr :: rest) tree next_pos size =
      Memtable.build_tree_go rest tree next_pos size := rfl

theorem build_tree_go_cons_ok (record : ByteRecord) (endPos : Nat) (rest : List ReadItem)
    (tree : Tree) (next_pos size : Nat) :
    Memtable.build_tree_go (.ok record endPos :: rest) tree next_pos size =
      if Memtable.crcFieldPanics record then none
      else
        match Memtable.read_record record with
        | some (key, value) =>
          Memtable.build_tree_go rest (treeInsert tree key value).1 endPos
            ((match (treeInsert tree key value).2 with
              | some old_value => size - old_value.length
              | none => size + key.length) + value.length)
        | none => some (tree, next_pos, size) := rfl

theorem replayPrefix_cons_err (rest : List ReadItem) :
    replayPrefix (.readErr :: rest) = replayPrefix rest := by
  simp [replayPrefix, haltsReplay, List.takeWhile_cons]

theorem replayPanics_cons_err (rest : List ReadItem) :
    replayPanics (.readErr :: rest) = replayPanics rest := by
  simp [replayPanics, haltsReplay, List.dropWhile_cons]

theorem replayPrefix_cons_ok_some {record : ByteRecord} {endPos : Nat}
    {kv : Bytes × Bytes} (rest : List ReadItem)
    (hp : Memtable.crcFieldPanics record = false)
    (hd : Memtable.read_record record = some kv) :
    replayPrefix (.ok record endPos :: rest) = (kv, endPos) :: replayPrefix rest := by
  simp [replayPrefix, haltsReplay, List.takeWhile_cons, hp, hd]

theorem replayPanics_cons_ok_some {record : ByteRecord} {endPos : Nat}
    {kv : Bytes × Bytes} (rest : List ReadItem)
    (hp : Memtable.crcFieldPanics record = false)
    (hd : Memtable.read_record record = some kv) :
    replayPanics (.ok record endPos :: rest) = replayPanics rest := by
  simp [replayPanics, haltsReplay, List.dropWhile_cons, hp, hd]

theorem replayPrefix_cons_ok_halt {record : ByteRecord} {endPos : Nat}
    (rest : List ReadItem) (hh : haltsReplay (.ok record endPos) = true) :
    replayPrefix (.ok record endPos :: rest) = [] := by
  simp [replayPrefix, List.takeWhile_cons, hh]

theorem replayPanics_cons_ok_halt {record : ByteRecord} {endPos : Nat}
    (rest : List ReadItem) (hh : haltsReplay (.ok record endPos) = true) :
    replayPanics (.ok record endPos :: rest) = Memtable.crcFieldPanics record := by
  simp [replayPanics, List.dropWhile_cons, hh]

theorem getLastD_cons_eq {α : Type _} (a : α) (l : List α) (d : α) :
    (a :: l).getLastD d = l.getLastD a := by
  cases l <;> rfl

theorem build_tree_go_spec (items : List ReadItem) :
    ∀ (tree : Tree) (next_pos size : Nat),
      (Memtable.build_tree_go items tree next_pos size = none ↔
        replayPanics items = true) ∧
      ∀ t p s2, Memtable.build_tree_go items tree next_pos size = some (t, p, s2) →
        t = (replayPrefix items).foldl (fun t r => (treeInsert t r.1.1 r.1.2).1) tree ∧
        p = ((replayPrefix items).map (·.2)).getLastD next_pos := by
  induction items with
  | nil =>
    intro tree next_pos size
    constructor
    · simp [Memtable.build_tree_go, replayPanics]
    · intro t p s2 h
      obtain ⟨h1, h2, _⟩ : tree = t ∧ next_pos = p ∧ size = s2 := by
        simpa [Memtable.build_tree_go] using h
      rw [← h1, ← h2]
      simp [replayPrefix]
  | cons it rest ih =>
    intro tree next_pos size
    cases it with
    | readErr =>
      simp only [build_tree_go_cons_err, replayPrefix_cons_err, replayPanics_cons_err]
      exact ih tree next_pos size
    | ok record endPos =>
      by_cases hp : Memtable.crcFieldPanics record = true
      · have hh : haltsReplay (.ok record endPos) = true := by
          simp [haltsReplay, hp]
        have hb : Memtable.build_tree_go (.ok record endPos :: rest) tree next_pos size =
            none := by
          rw [build_tree_go_cons_ok, if_pos hp]
        constructor
        · rw [hb, replayPanics_cons_ok_halt rest hh, hp]
          simp
        · intro t p s2 h
          rw [hb] at h
          exact absurd h (by simp)
      · have hp' : Memtable.crcFieldPanics record = false := by simpa using hp
        cases hd : Memtable.read_record record with
        | none =>
          have hh : haltsReplay (.ok record endPos) = true := by
            simp [haltsReplay, hd]
          have hb : Memtable.build_tree_go (.ok record endPos :: rest) tree next_pos size =
              some (tree, next_pos, size) := by
            rw [build_tree_go_cons_ok, if_neg hp, hd]
          constructor
          · rw [hb, replayPanics_cons_ok_halt rest hh, hp']
            simp
          · intro t p s2 h
            rw [hb] at h
            obtain ⟨h1, h2, _⟩ : tree = t ∧ next_pos = p ∧ size = s2 := by simpa using h
            rw [← h1, ← h2, replayPrefix_cons_ok_halt rest hh]
            simp
        | some kv =>
          obtain ⟨key, value⟩ := kv
          have hb : Memtable.build_tree_go (.ok record endPos :: rest) tree next_pos size =
              Memtable.build_tree_go rest (treeInsert tree key value).1 endPos
                ((match (treeInsert tree key value).2 with
                  | some old_value => size - old_value.length
                  | none => size + key.length) + value.length) := by
            rw [build_tree_go_cons_ok, if_neg hp, hd]
          simp only [hb, replayPrefix_cons_ok_some rest hp' hd,
            replayPanics_cons_ok_some rest hp' hd, List.foldl_cons, List.map_cons,
            getLastD_cons_eq]
          exact ih (treeInsert tree key value).1 endPos
            ((match (treeInsert tree key value).2 with
              | some old_value => size - old_value.length
              | none => size + key.length) + value.length)

/-- C7 (amended).  On memtable construction the newest log is replayed
sequentially.  Replay stops at the first record that fails to *decode*
with a missing field or a CRC mismatch; a CSV-level read error is logged
and skipped, replay continuing with subsequent records; and a record whose
CRC field is present but shorter than four bytes makes
`Bytes::get_u32_le` panic, aborting construction.  When no panic occurs,
every record decoded before the stopping point is inserted into the active
tree, and the log file is truncated to the byte offset just past the last
good record. -/
theorem replay_inserts_decoded_prefix_and_truncates (items : List ReadItem) (raw : Bytes) :
    (Memtable.build_tree_from_list items = none ↔ replayPanics items = true) ∧
    ∀ (tree : Tree) (next_pos size : Nat),
      Memtable.build_tree_from_list items = some (tree, next_pos, size) →
      tree = replayTreeSpec items ∧ next_pos = replayPosSpec items ∧
      Memtable.truncateLog raw next_pos = raw.take (replayPosSpec items) := by
  obtain ⟨h1, h2⟩ := build_tree_go_spec items [] 0 0
  refine ⟨h1, ?_⟩
  intro tree next_pos size h
  obtain ⟨ht, hpn⟩ := h2 tree next_pos size h
  exact ⟨ht, hpn, by rw [Memtable.truncateLog, hpn]; rfl⟩

/-- Witness for C7's amended theorem: a skipped read error followed by one
good record recovers that record and truncates just past it; a record
whose CRC field is the single byte 120 (the log line `x,a,b`) panics the
replay. -/
theorem replay_inserts_decoded_prefix_and_truncates_witness :
    ([([107], [118])] = replayTreeSpec [.readErr, .ok (Memtable.parse_record [107] [118]) 10] ∧
      10 = replayPosSpec [.readErr, .ok (Memtable.parse_record [107] [118]) 10] ∧
      Memtable.truncateLog [0, 1, 2] 10 =
        List.take (replayPosSpec [.readErr, .ok (Memtable.parse_record [107] [118]) 10])
          [0, 1, 2]) ∧
    (Memtable.build_tree_from_list [.ok [[120], [97], [98]] 6] = none ↔
      replayPanics [.ok [[120], [97], [98]] 6] = true) :=
  ⟨(replay_inserts_decoded_prefix_and_truncates
      [.readErr, .ok (Memtable.parse_record [107] [118]) 10] [0, 1, 2]).2
      [([107], [118])] 10 2 (by decide),
    (replay_inserts_decoded_prefix_and_truncates [.ok [[120], [97], [98]] 6] [0, 1, 2]).1⟩

/-! ## Log selection in `Memtable::new` -/

/-- `id.parse::<u64>()` on a log-id string: decimal digits only. -/
def parseLogId (s : Bytes) : Option Nat :=
  if s = [] then none
  else if s.all fun c => 48 ≤ c && c ≤ 57 then
    some (s.foldl (fun n c => n * 10 + (c - 48)) 0)
  else none

namespace Memtable

/-- The log-selection loop of `Memtable::new` (`src/memtable.rs` lines
127–148).  The input is the `BTreeMap<String, PathBuf>` built by
`Database::new`, given here as its ascending iteration order: the log-id
strings (byte strings) sorted strictly ascending in the lexicographic
string order.  `logs.next_back()` yields them in descending order: the
first becomes the active log, the second (if any) the frozen log, and all
remaining ones are removed. -/
def selectLogs (logs : List Bytes) : Option Bytes × Option Bytes × List Bytes :=
  match logs.reverse with
  | [] => (none, none, [])
  | active :: rest =>
    match rest with
    | [] => (some active, none, [])
    | fr :: older => (some active, some fr, older)

end Memtable

/-- C3 (counterexample).  With on-disk logs `"10"` (bytes `[49, 48]`) and
`"9"` (bytes `[57]`), the `BTreeMap<String, _>` ascending order is
`["10", "9"]`, so `next_back` yields `"9"` first: the log with numeric id 9
becomes the active log even though 10 is the greatest numeric id. -/
theorem selectLogs_string_order_counterexample :
    Memtable.selectLogs [[49, 48], [57]] = (some [57], some [49, 48], []) ∧
    parseLogId [57] = some 9 ∧ parseLogId [49, 48] = some 10 := by
  decide

/-- C3 (amended).  Memtable construction processes the recovered logs in
descending *lexicographic* order of their id strings (which agrees with
numeric order only while all ids have equally many digits): the
lexicographically greatest id becomes the active log, the second-greatest
(if any) is decoded into the frozen tree, and exactly the remaining ids are
removed. -/
theorem selectLogs_descending_lex (logs : List Bytes)
    (hs : List.Sorted (· < ·) logs) (hne : logs ≠ []) :
    ∃ active, (Memtable.selectLogs logs).1 = some active ∧ active ∈ logs ∧
      (∀ x ∈ logs, x ≤ active) ∧
      (((Memtable.selectLogs logs).2.1 = none ∧ logs = [active]) ∨
        ∃ fr, (Memtable.selectLogs logs).2.1 = some fr ∧ fr ∈ logs ∧ fr < active ∧
          ∀ x ∈ logs, x ≠ active → x ≤ fr) ∧
      ∀ x, x ∈ (Memtable.selectLogs logs).2.2 ↔
        x ∈ logs ∧ x ≠ active ∧ (Memtable.selectLogs logs).2.1 ≠ some x := by
  cases hr : logs.reverse with
  | nil =>
    exact absurd (by simpa using congrArg List.reverse hr) hne
  | cons a rest =>
    have hlogs : logs = rest.reverse ++ [a] := by
      have := congrArg List.reverse hr
      simpa using this
    cases rest with
    | nil =>
      simp only [List.reverse_nil, List.nil_append] at hlogs
      subst hlogs
      refine ⟨a, by simp [Memtable.selectLogs], by simp, by simp, Or.inl ⟨by simp [Memtable.selectLogs], rfl⟩, ?_⟩
      intro x
      simp [Memtable.selectLogs]
    | cons f older =>
      have hlogs' : logs = older.reverse ++ [f, a] := by
        simpa using hlogs
      subst hlogs'
      have hsel : Memtable.selectLogs (older.reverse ++ [f, a]) = (some a, some f, older) := by
        simp only [Memtable.selectLogs, hr]
      obtain ⟨h1, h2, h3⟩ := List.pairwise_append.mp hs
      have hfa : f < a := by
        simpa using List.rel_of_sorted_cons h2 a (by simp)
      refine ⟨a, by rw [hsel], by simp, ?_, ?_, ?_⟩
      · intro x hx
        rcases (by simpa using hx : x ∈ older.reverse ∨ x = f ∨ x = a) with h | h | h
        · exact le_of_lt (h3 x h a (by simp))
        · exact le_of_lt (h ▸ hfa)
        · exact le_of_eq h
      · refine Or.inr ⟨f, by rw [hsel], by simp, hfa, ?_⟩
        intro x hx hxa
        rcases (by simpa using hx : x ∈ older.reverse ∨ x = f ∨ x = a) with h | h | h
        · exact le_of_lt (h3 x h f (by simp))
        · exact le_of_eq h
        · exact absurd h hxa
      · intro x
        rw [hsel]
        simp only [List.mem_append, List.mem_cons, List.mem_reverse,
          List.not_mem_nil, or_false, ne_eq, Option.some.injEq]
        constructor
        · intro hx
          have hxrev : x ∈ older.reverse := by simpa using hx
          have hxf : x < f := h3 x hxrev f (by simp)
          have hxa : x < a := h3 x hxrev a (by simp)
          exact ⟨Or.inl (by simpa using hx), fun h => absurd (h ▸ hxa) (lt_irrefl a),
            fun h => absurd (h ▸ hxf) (lt_irrefl f)⟩
        · rintro ⟨hmem, hxa, hxf⟩
          rcases hmem with h | h | h
          · simpa using h
          · exact absurd h.symm hxf
          · exact absurd h hxa

/-- Witness for C3's amended theorem at the sorted log list
`["1", "2", "3"]`. -/
theorem selectLogs_descending_lex_witness :
    ∃ active, (Memtable.selectLogs [[49], [50], [51]]).1 = some active ∧
      active ∈ [[49], [50], [51]] ∧
      (∀ x ∈ [[49], [50], [51]], x ≤ active) ∧
      (((Memtable.selectLogs [[49], [50], [51]]).2.1 = none ∧ [[49], [50], [51]] = [active]) ∨
        ∃ fr, (Memtable.selectLogs [[49], [50], [51]]).2.1 = some fr ∧
          fr ∈ [[49], [50], [51]] ∧ fr < active ∧
          ∀ x ∈ [[49], [50], [51]], x ≠ active → x ≤ fr) ∧
      ∀ x, x ∈ (Memtable.selectLogs [[49], [50], [51]]).2.2 ↔
        x ∈ [[49], [50], [51]] ∧ x ≠ active ∧
          (Memtable.selectLogs [[49], [50], [51]]).2.1 ≠ some x :=
  selectLogs_descending_lex [[49], [50], [51]] (by decide) (by decide)

/-! ## Segment files and the sparse index

A segment file is a CSV file of two-field `(key, value)` records.  The
reader/writer positions that `initialize_index` records are byte offsets in
that file, so the model carries the exact on-disk size of each record
(fields joined by commas, newline terminated, a field quoted when it
contains a quote, the comma delimiter, CR or LF; quotes doubled). -/

/-- Whether the CSV writer must quote a field. -/
def needsQuote (f : Bytes) : Bool :=
  f.any fun b => b == 34 || b == 44 || b == 10 || b == 13

/-- On-disk byte size of one CSV field. -/
def fieldSize (f : Bytes) : Nat :=
  if needsQuote f then f.length + 2 + f.countP (· == 34) else f.length

/-- On-disk byte size of one CSV record: its fields, one separator byte per
field (the commas between fields plus the terminating newline). -/
def recordSize (fields : ByteRecord) : Nat :=
  (fields.map fieldSize).sum + fields.length

/-- Byte size of one two-field `(key, value)` segment record. -/
def segRecordSize (kv : Bytes × Bytes) : Nat :=
  recordSize [kv.1, kv.2]

/-- `BTreeMap<Bytes, u64>::insert` for the sparse index. -/
def idxInsert : List (Bytes × Nat) → Bytes → Nat → List (Bytes × Nat)
  | [], key, off => [(key, off)]
  | (k, v) :: rest, key, off =>
    if key < k then (key, off) :: (k, v) :: rest
    else if key = k then (key, off) :: rest
    else (k, v) :: idxInsert rest key off

/-- A `Segment` (`src/segment.rs` lines 52–57): the `path` field is
modelled by the record contents of the file at that path, `index` is the
optional in-memory sparse index. -/
structure Segment where
  records : List (Bytes × Bytes)
  index : Option (List (Bytes × Nat))
deriving DecidableEq, Repr

namespace Segment

/-- The scan loop of `Segment::initialize_index` (`src/segment.rs` lines
67–96): before each read, `offset` is the reader position; after reading a
record, if `offset - last_block_offset >= block_size` the record's key is
inserted at `offset` and `last_block_offset` is reset.  The final EOF read
yields a record with no key and inserts nothing. -/
def buildIndex (block_size : Nat) :
    List (Bytes × Bytes) → Nat → Nat → List (Bytes × Nat) → List (Bytes × Nat)
  | [], _, _, index => index
  | r :: rest, offset, last_block_offset, index =>
    if block_size ≤ offset - last_block_offset then
      buildIndex block_size rest (offset + segRecordSize r) offset (idxInsert index r.1 offset)
    else
      buildIndex block_size rest (offset + segRecordSize r) last_block_offset index

/-- `Segment::initialize_index`. -/
def initialize_index (s : Segment) (block_size : Nat) : Segment :=
  { s with index := some (buildIndex block_size s.records 0 0 []) }

/-- `Segment::records(start)` (`src/segment.rs` lines 111–121): seek to
byte `start` and read records from there — the suffix of records whose
start offset is at least `start`. -/
def recordsFrom : List (Bytes × Bytes) → Nat → Nat → List (Bytes × Bytes)
  | [], _, _ => []
  | r :: rest, pos, start =>
    if start ≤ pos then r :: rest
    else recordsFrom rest (pos + segRecordSize r) start

/-- The index probe of `Segment::get`:
`index.iter().rev().find(|(k, _)| *k <= key).map(|(_, p)| *p)` — the
offset of the greatest index key `≤ key`, `none` when there is no such
entry. -/
def indexSeek (index : List (Bytes × Nat)) (key : Bytes) : Option Nat :=
  (index.reverse.find? fun kv => decide (kv.1 ≤ key)).map (·.2)

/-- `impl Get for Segment::get` (`src/segment.rs` lines 128–156).  With an
index, seek to the probed offset — when the probe finds no entry the whole
scan is skipped and the result is `None`.  Without an index, scan from
offset 0.  The scan returns the first record whose key equals the lookup
key. -/
def get (s : Segment) (key : Bytes) : Option Bytes :=
  let offset :=
    match s.index with
    | some index => indexSeek index key
    | none => some 0
  match offset with
  | some off =>
    ((recordsFrom s.records 0 off).find? fun kv => decide (kv.1 = key)).map (·.2)
  | none => none

end Segment

/-- C1 (code bug).  The claim: with a built sparse index, a lookup key with
no index entry `≤` it starts the scan at the implicit offset-0 entry, so a
key preceding the first index entry is still found.  In the source, when
`find` yields no index entry the offset stays `None` and `get` returns
`Ok(None)` without scanning: for the segment `[("a","1"), ("b","2")]`
indexed with `block_size = 1` the index is `{"b" ↦ 4}`, and `get("a")`
returns `none` although `("a","1")` is stored (the same lookup without an
index — the implicit offset-0 scan the claim describes — finds it). -/
theorem segment_get_misses_key_before_first_index_entry :
    let s0 : Segment := { records := [([97], [49]), ([98], [50])], index := none }
    let s := s0.initialize_index 1
    s.index = some [([98], 4)] ∧ ([97], [49]) ∈ s.records ∧
      s.get [97] = none ∧ s.get [98] = some [50] ∧
      ({ records := s.records, index := none } : Segment).get [97] = some [49] := by
  decide

/-! ## The database view shared between a `get` and the flush task -/

/-- The shared state a concurrent `get` observes: the memtable behind one
`RwLock` and the segment set (`BTreeMap<u64, Segment>`, ascending id order)
behind another. -/
structure DbState where
  memtable : Memtable
  segments : List (Nat × Segment)
deriving Repr

/-- `BTreeMap<u64, Segment>::insert` of the segment set. -/
def segmentsInsert : List (Nat × Segment) → Nat → Segment → List (Nat × Segment)
  | [], sid, s => [(sid, s)]
  | (i, t) :: rest, sid, s =>
    if sid < i then (sid, s) :: (i, t) :: rest
    else if sid = i then (sid, s) :: rest
    else (i, t) :: segmentsInsert rest sid s

namespace Database

/-- `Database::get_from_segments` (`src/database.rs` lines 188–205):
iterate the segment set in descending id order and return the first hit. -/
def get_from_segments (segments : List (Nat × Segment)) (key : Bytes) : Option Bytes :=
  segments.reverse.findSome? fun p => p.2.get key

/-- `impl Get for Database` (`src/database.rs` lines 359–376): the memtable
first, then the segments. -/
def get (st : DbState) (key : Bytes) : Option Bytes :=
  match st.memtable.get key with
  | some v => some v
  | none => get_from_segments st.segments key

/-- Step 5 of the flush task in `Database::write_new_segment`
(`src/database.rs` line 180): `memtable.write().finalize_switch()` —
executed under the memtable lock only, before the segment is installed. -/
def flushFinalize (st : DbState) : DbState :=
  { st with memtable := (st.memtable.finalize_switch).1 }

/-- Step 6 of the flush task (`src/database.rs` line 181):
`segments.write().insert(segment_id, segment)` — executed under the
segment-set lock only. -/
def flushInstall (st : DbState) (sid : Nat) (s : Segment) : DbState :=
  { st with segments := segmentsInsert st.segments sid s }

end Database

/-- C9 (code bug).  The claim: a `get` concurrent with a flush always sees
a frozen key's value, either via the frozen memtable or via the installed
segment.  The flush task clears the frozen memtable (`finalize_switch`)
*before* inserting the new segment, and the two steps are under different
locks: a `get` that runs entirely between them finds the key in neither
place.  With frozen tree `{[107] ↦ [118]}` and the segment already written
and indexed from it: before `finalize_switch` the get sees the value, in
the window between the two steps it sees `none`, after the install it sees
the value again. -/
theorem get_between_finalize_and_install_observes_neither :
    let st0 : DbState :=
      { memtable :=
          { active_tree := [], freeze_tree := some [([107], [118])], active_size := 0
            active_log_id := 2, freeze_log_id := some 1
            switch_active_size := 0, log_writer_id := 2 }
        segments := [] }
    let seg := Segment.initialize_index { records := [([107], [118])], index := none } 0
    Database.get st0 [107] = some [118] ∧
      Database.get (Database.flushFinalize st0) [107] = none ∧
      Database.get (Database.flushInstall (Database.flushFinalize st0) 1 seg) [107] =
        some [118] := by
  decide

/-! ## Compaction: `Database::merge_segments`

One merge cycle (`src/database.rs` lines 261–308) k-way merges the record
streams of all live segments.  `segment_records` is a `BTreeMap` from
segment id to a peekable record iterator, iterated `.rev()` — in descending
id order — by the inner `for` loop; the streams are modelled by the lists
of records remaining in each reader, the state being kept in that
descending iteration order. -/

/-- The records remaining in one segment reader. -/
abbrev SegRecords := List (Bytes × Bytes)

/-- The merge state: `(segment id, remaining records)`, in descending id
order (the `.rev()` iteration order of the `BTreeMap` of readers). -/
abbrev MergeState := List (Nat × SegRecords)

namespace Database

/-- The inner `for` loop of one merge round (`src/database.rs` lines
264–290): walk the readers in descending id order carrying the current
`smallest = (id, key)`.  An exhausted reader is pushed to `done` (and
removed from the map right after the round — removed here).  A reader
whose peeked key is smaller than the current smallest becomes the new
smallest; one whose key *equals* the current smallest is advanced past it
without emitting (`segment.next()`). -/
def mergePass (s : Option (Nat × Bytes)) :
    MergeState → Option (Nat × Bytes) × MergeState
  | [] => (s, [])
  | (_, []) :: rest => mergePass s rest
  | (id, (k, v) :: tl) :: rest =>
    match s with
    | none =>
      let r := mergePass (some (id, k)) rest
      (r.1, (id, (k, v) :: tl) :: r.2)
    | some (sid, sk) =>
      if k < sk then
        let r := mergePass (some (id, k)) rest
        (r.1, (id, (k, v) :: tl) :: r.2)
      else if k = sk then
        let r := mergePass (some (sid, sk)) rest
        (r.1, (id, tl) :: r.2)
      else
        let r := mergePass (some (sid, sk)) rest
        (r.1, (id, (k, v) :: tl) :: r.2)

/-- After the pass, the record is popped from the smallest reader and
written out (`src/database.rs` lines 291–301):
`segment_records.get_mut(&smallest_id).and_then(|r| r.next())`. -/
def emitFrom : MergeState → Nat → Option (Bytes × Bytes) × MergeState
  | [], _ => (none, [])
  | (id, l) :: rest, sid =>
    if id = sid then
      match l with
      | [] => (none, (id, l) :: rest)
      | r :: tl => (some r, (id, tl) :: rest)
    else
      let o := emitFrom rest sid
      (o.1, (id, l) :: o.2)

/-- Total number of records left in the state. -/
def totalSize (st : MergeState) : Nat :=
  (st.map fun p => p.2.length).sum

/-- The outer `loop` of the merge cycle: find the smallest current key; if
none, stop; otherwise pop that reader's record and write it.  Fuel-driven:
every productive round consumes at least one record, so `totalSize st + 1`
fuel is never exhausted. -/
def mergeLoop : Nat → MergeState → List (Bytes × Bytes)
  | 0, _ => []
  | fuel + 1, st =>
    match mergePass none st with
    | (none, _) => []
    | (some (sid, _), st1) =>
      match emitFrom st1 sid with
      | (some r, st2) => r :: mergeLoop fuel st2
      | (none, st2) => mergeLoop fuel st2

/-- One full merge cycle of `Database::merge_segments`: the sequence of
records written to the temp file. -/
def merge_segments (st : MergeState) : List (Bytes × Bytes) :=
  mergeLoop (totalSize st + 1) st

end Database

/-- Scan one reader's records for a key (what the merged file stores for
that key). -/
def assocFind (l : SegRecords) (key : Bytes) : Option Bytes :=
  (l.find? fun kv => decide (kv.1 = key)).map (·.2)

/-- Lookup across the state in descending id order: the value of the
segment with the largest id that contains the key. -/
def lookupNewest : MergeState → Bytes → Option Bytes
  | [], _ => none
  | (_, l) :: rest, key =>
    match assocFind l key with
    | some v => some v
    | none => lookupNewest rest key

/-- Well-formedness of a merge input: reader ids strictly descending (the
`BTreeMap` `.rev()` order), and each segment's records in strictly
ascending unique key order. -/
def MergeWF (st : MergeState) : Prop :=
  (st.map Prod.fst).Pairwise (· > ·) ∧
    ∀ p ∈ st, (p.2.map Prod.fst).Pairwise (· < ·)

/-- C4 (counterexample).  The claim ends with: "hence get(k) returns the
same value before and after compaction for every key k".  Through the
actual `Segment::get` this fails: each input segment here holds a single
4-byte record, so with `block_size = 4` their sparse indexes are empty and
both keys are unreachable before the merge (`get` returns `none`, cf. C1);
after the merge the record of key `[98]` sits at offset 4 of the merged
file, gets an index entry, and becomes readable: `get([98])` changes from
`none` to `some [57]` across one compaction cycle. -/
theorem compaction_changes_observable_get :
    let s2 : Segment := Segment.initialize_index { records := [([97], [49])], index := none } 4
    let s1 : Segment := Segment.initialize_index { records := [([98], [57])], index := none } 4
    let merged := Database.merge_segments [(2, [([97], [49])]), (1, [([98], [57])])]
    let sm : Segment := Segment.initialize_index { records := merged, index := none } 4
    merged = [([97], [49]), ([98], [57])] ∧
      Database.get_from_segments [(1, s1), (2, s2)] [98] = none ∧
      Database.get_from_segments [(3, sm)] [98] = some [57] := by
  decide

/-! ### Basic lemmas about reader lookup -/

theorem assocFind_nil (key : Bytes) : assocFind [] key = none := rfl

theorem assocFind_cons (k v : Bytes) (t : SegRecords) (key : Bytes) :
    assocFind ((k, v) :: t) key = if k = key then some v else assocFind t key := by
  by_cases h : k = key <;> simp [assocFind, List.find?_cons, h]

theorem assocFind_eq_none_iff (l : SegRecords) (key : Bytes) :
    assocFind l key = none ↔ ∀ kv ∈ l, kv.1 ≠ key := by
  simp [assocFind, List.find?_eq_none]

theorem mem_of_assocFind_eq_some {l : SegRecords} {key w : Bytes}
    (h : assocFind l key = some w) : (key, w) ∈ l := by
  simp only [assocFind, Option.map_eq_some'] at h
  obtain ⟨kv, hf, hw⟩ := h
  have hm := List.mem_of_find?_eq_some hf
  have hp := List.find?_some hf
  simp only [decide_eq_true_eq] at hp
  obtain ⟨k1, v1⟩ := kv
  simp only at hp hw
  rw [hp, hw] at hm
  exact hm

theorem assocFind_ne_none_iff (l : SegRecords) (key : Bytes) :
    assocFind l key ≠ none ↔ ∃ v, (key, v) ∈ l := by
  constructor
  · intro h
    cases hf : assocFind l key with
    | none => exact absurd hf h
    | some w => exact ⟨w, mem_of_assocFind_eq_some hf⟩
  · rintro ⟨v, hv⟩ hnone
    rw [assocFind_eq_none_iff] at hnone
    exact hnone (key, v) hv rfl

theorem lookupNewest_nil (key : Bytes) : lookupNewest [] key = none := rfl

theorem lookupNewest_cons (id : Nat) (l : SegRecords) (rest : MergeState) (key : Bytes) :
    lookupNewest ((id, l) :: rest) key =
      match assocFind l key with
      | some v => some v
      | none => lookupNewest rest key := rfl

theorem lookupNewest_eq_none_iff (st : MergeState) (key : Bytes) :
    lookupNewest st key = none ↔ ∀ p ∈ st, assocFind p.2 key = none := by
  induction st with
  | nil => simp [lookupNewest_nil]
  | cons p rest ih =>
    obtain ⟨id, l⟩ := p
    rw [lookupNewest_cons]
    cases hf : assocFind l key with
    | some v => simp [hf]
    | none => simpa [hf] using ih

theorem lookupNewest_congr (key : Bytes) :
    ∀ {L M : MergeState},
      List.Forall₂ (fun p q : Nat × SegRecords => assocFind p.2 key = assocFind q.2 key) L M →
      lookupNewest L key = lookupNewest M key := by
  intro L M h
  induction h with
  | nil => rfl
  | cons hpq _ ih =>
    rw [show ∀ (p : Nat × SegRecords) r, lookupNewest (p :: r) key =
        (match assocFind p.2 key with
          | some v => some v
          | none => lookupNewest r key) from fun p r => rfl]
    rw [show ∀ (p : Nat × SegRecords) r, lookupNewest (p :: r) key =
        (match assocFind p.2 key with
          | some v => some v
          | none => lookupNewest r key) from fun p r => rfl]
    rw [hpq, ih]

/-- Strictly ascending unique key order of one segment's records. -/
abbrev sortedKeys (l : SegRecords) : Prop :=
  (l.map Prod.fst).Pairwise (· < ·)

theorem sortedKeys_cons_iff (k v : Bytes) (tl : SegRecords) :
    sortedKeys ((k, v) :: tl) ↔ (∀ kv ∈ tl, k < kv.1) ∧ sortedKeys tl := by
  simp only [sortedKeys, List.map_cons, List.pairwise_cons, List.mem_map]
  constructor
  · rintro ⟨h1, h2⟩
    exact ⟨fun kv hkv => h1 kv.1 ⟨kv, hkv, rfl⟩, h2⟩
  · rintro ⟨h1, h2⟩
    exact ⟨by rintro b ⟨kv, hkv, rfl⟩; exact h1 kv hkv, h2⟩

theorem forall₂_imp_mem {α β : Type _} {R S : α → β → Prop} :
    ∀ {l : List α} {m : List β}, List.Forall₂ R l m →
      (∀ a ∈ l, ∀ b ∈ m, R a b → S a b) → List.Forall₂ S l m := by
  intro l m h
  induction h with
  | nil => intro; exact List.Forall₂.nil
  | cons hpq htail ih =>
    intro himp
    exact List.Forall₂.cons
      (himp _ (by simp) _ (by simp) hpq)
      (ih fun a ha b hb hr => himp a (by simp [ha]) b (by simp [hb]) hr)

theorem forall₂_mem_right {α β : Type _} {R : α → β → Prop} :
    ∀ {l : List α} {m : List β}, List.Forall₂ R l m →
      ∀ b ∈ m, ∃ a ∈ l, R a b := by
  intro l m h
  induction h with
  | nil => intro b hb; exact absurd hb (List.not_mem_nil b)
  | cons hpq _ ih =>
    intro b hb
    rcases List.mem_cons.mp hb with rfl | hb
    · exact ⟨_, by simp, hpq⟩
    · obtain ⟨a, ha, hr⟩ := ih b hb
      exact ⟨a, by simp [ha], hr⟩

theorem forall₂_fst_eq {β : Type _} {R : (Nat × β) → (Nat × β) → Prop} :
    ∀ {l m : List (Nat × β)}, List.Forall₂ R l m →
      (∀ a b, R a b → a.1 = b.1) → l.map Prod.fst = m.map Prod.fst := by
  intro l m h
  induction h with
  | nil => intro; rfl
  | cons hpq _ ih =>
    intro hfst
    simp only [List.map_cons]
    rw [hfst _ _ hpq, ih hfst]

theorem unique_of_pairwise_gt {β : Type _} :
    ∀ {l : List (Nat × β)}, (l.map Prod.fst).Pairwise (· > ·) →
      ∀ {id : Nat} {a b : β}, (id, a) ∈ l → (id, b) ∈ l → a = b := by
  intro l
  induction l with
  | nil => intro _ _ _ _ ha; exact absurd ha (List.not_mem_nil _)
  | cons p rest ih =>
    intro hp id a b ha hb
    simp only [List.map_cons, List.pairwise_cons] at hp
    rcases List.mem_cons.mp ha with rfl | ha' <;> rcases List.mem_cons.mp hb with hb' | hb'
    · exact congrArg Prod.snd hb'.symm
    · exact absurd (hp.1 id (List.mem_map_of_mem Prod.fst hb')) (lt_irrefl id)
    · rw [← hb'] at hp
      exact absurd (hp.1 id (List.mem_map_of_mem Prod.fst ha')) (lt_irrefl id)
    · exact ih hp.2 ha' hb'

theorem totalSize_append (a b : MergeState) :
    Database.totalSize (a ++ b) = Database.totalSize a + Database.totalSize b := by
  simp [Database.totalSize]

theorem totalSize_cons (p : Nat × SegRecords) (rest : MergeState) :
    Database.totalSize (p :: rest) = p.2.length + Database.totalSize rest := by
  simp [Database.totalSize]

/-! ### One pass of the merge round -/

/-- Justification for a pass popping a reader head with key `k` at reader
`id`: either the call's running smallest already carried `k` (the skip of
`segment.next()` on key equality), or a reader with a larger id still heads
`k` after the pass. -/
def PopOk (s : Option (Nat × Bytes)) (out : MergeState) (k : Bytes) (id : Nat) : Prop :=
  (∃ sid0, s = some (sid0, k)) ∨
    ∃ q' ∈ out, q'.1 > id ∧ ∃ kv' : Bytes × Bytes, ∃ tl', q'.2 = kv' :: tl' ∧ kv'.1 = k

/-- Per-reader effect of one pass: unchanged, or the head popped with
justification. -/
def PassShape (s : Option (Nat × Bytes)) (out : MergeState) (p q : Nat × SegRecords) : Prop :=
  p.1 = q.1 ∧ (q.2 = p.2 ∨ ∃ kv tl, p.2 = kv :: tl ∧ q.2 = tl ∧ PopOk s out kv.1 p.1)

theorem mergePass_master :
    ∀ (st : MergeState) (s s' : Option (Nat × Bytes)) (st' : MergeState),
      Database.mergePass s st = (s', st') →
      (st.map Prod.fst).Pairwise (· > ·) →
      (∀ p ∈ st, sortedKeys p.2) →
      List.Forall₂ (PassShape s st') (st.filter fun p => !p.2.isEmpty) st' ∧
      (s' = none → s = none) ∧
      (∀ sid' sk', s' = some (sid', sk') →
        ((s = some (sid', sk') ∨ ∃ v tl, (sid', ((sk', v) :: tl : SegRecords)) ∈ st') ∧
         (∀ sid0 sk0, s = some (sid0, sk0) → sk' ≤ sk0 ∧ (s' ≠ s → sk' < sk0)) ∧
         (∀ p ∈ st, ∀ k v tl, p.2 = (k, v) :: tl → sk' ≤ k) ∧
         (∀ q ∈ st', ∀ k v tl, q.2 = (k, v) :: tl → k = sk' → s' ≠ s ∧ q.1 = sid'))) := by
  intro st
  induction st with
  | nil =>
    intro s s' st' hpass _ _
    obtain ⟨rfl, rfl⟩ : s = s' ∧ ([] : MergeState) = st' := by
      simpa [Database.mergePass] using hpass
    refine ⟨by simp [List.Forall₂.nil], fun h => h, ?_⟩
    intro sid' sk' hs'
    refine ⟨Or.inl hs', ?_, by simp, by simp⟩
    intro sid0 sk0 h0
    rw [hs'] at h0
    obtain ⟨rfl, rfl⟩ : sid' = sid0 ∧ sk' = sk0 := by
      simpa using h0
    exact ⟨le_refl _, fun hne => absurd rfl hne⟩
  | cons p rest ih =>
    obtain ⟨id, l⟩ := p
    intro s s' st' hpass hids hsort
    have hids2 : (id :: rest.map Prod.fst).Pairwise (· > ·) := by simpa using hids
    have hids' : (rest.map Prod.fst).Pairwise (· > ·) := (List.pairwise_cons.mp hids2).2
    have hid_gt : ∀ p' ∈ rest, p'.1 < id := fun p' hp' =>
      (List.pairwise_cons.mp hids2).1 p'.1 (List.mem_map_of_mem Prod.fst hp')
    have hsort' : ∀ p ∈ rest, sortedKeys p.2 := fun p hp => hsort p (by simp [hp])
    cases l with
    | nil =>
      have hpass' : Database.mergePass s rest = (s', st') := by
        simpa [Database.mergePass] using hpass
      obtain ⟨A, B, C⟩ := ih s s' st' hpass' hids' hsort'
      refine ⟨by simpa using A, B, ?_⟩
      intro sid' sk' hs'
      obtain ⟨C1, C2, C3, C4⟩ := C sid' sk' hs'
      refine ⟨C1, C2, ?_, C4⟩
      intro p hp k2 v2 tl2 hp2
      rcases List.mem_cons.mp hp with rfl | hp
      · exact absurd hp2 (by simp)
      · exact C3 p hp k2 v2 tl2 hp2
    | cons kv tl =>
      obtain ⟨k, v⟩ := kv
      cases s with
      | none =>
        rcases hrec : Database.mergePass (some (id, k)) rest with ⟨s1, stR⟩
        obtain ⟨rfl, rfl⟩ : s1 = s' ∧ ((id, (k, v) :: tl) :: stR : MergeState) = st' := by
          rw [show Database.mergePass none ((id, (k, v) :: tl) :: rest) =
              ((Database.mergePass (some (id, k)) rest).1,
                (id, (k, v) :: tl) :: (Database.mergePass (some (id, k)) rest).2) from rfl,
            hrec] at hpass
          exact ⟨congrArg Prod.fst hpass, congrArg Prod.snd hpass⟩
        obtain ⟨A, B, C⟩ := ih (some (id, k)) s1 stR hrec hids' hsort'
        have hC2k : ∀ sid' sk', s1 = some (sid', sk') → sk' ≤ k ∧ (s1 ≠ some (id, k) → sk' < k) :=
          fun sid' sk' hs' => (C sid' sk' hs').2.1 id k rfl
        refine ⟨?_, fun h => rfl, ?_⟩
        · rw [show ((id, (k, v) :: tl) :: rest).filter (fun p => !p.2.isEmpty) =
              (id, (k, v) :: tl) :: rest.filter (fun p => !p.2.isEmpty) from by
            simp [List.filter_cons]]
          refine List.Forall₂.cons ⟨rfl, Or.inl rfl⟩ ?_
          refine forall₂_imp_mem A ?_
          rintro a ha b _ ⟨hfst, hcont⟩
          refine ⟨hfst, ?_⟩
          rcases hcont with h | ⟨kv2, tl2, hp2, hq2, hpop⟩
          · exact Or.inl h
          · refine Or.inr ⟨kv2, tl2, hp2, hq2, ?_⟩
            rcases hpop with ⟨sid0, hs0⟩ | ⟨q', hq', hgt, kv', tl', hq'2, hk'⟩
            · obtain ⟨h1, h2⟩ : id = sid0 ∧ k = kv2.1 := by simpa using hs0
              exact Or.inr ⟨(id, (k, v) :: tl), by simp,
                hid_gt a (List.mem_of_mem_filter ha), (k, v), tl, rfl, h2⟩
            · exact Or.inr ⟨q', by simp [hq'], hgt, kv', tl', hq'2, hk'⟩
        · intro sid' sk' hs'
          obtain ⟨C1, C2, C3, C4⟩ := C sid' sk' hs'
          refine ⟨?_, ?_, ?_, ?_⟩
          · rcases C1 with heq | ⟨v', tl', hmem⟩
            · obtain ⟨rfl, rfl⟩ : sid' = id ∧ sk' = k := by simpa using heq.symm
              exact Or.inr ⟨v, tl, by simp⟩
            · exact Or.inr ⟨v', tl', by simp [hmem]⟩
          · intro sid0 sk0 h0
            exact absurd h0 (by simp)
          · intro p hp k2 v2 tl2 hp2
            rcases List.mem_cons.mp hp with rfl | hp
            · obtain ⟨⟨rfl, _⟩, _⟩ : (k = k2 ∧ v = v2) ∧ tl = tl2 := by simpa using hp2
              exact (hC2k sid' sk' hs').1
            · exact C3 p hp k2 v2 tl2 hp2
          · intro q hq k2 v2 tl2 hq2 hke
            rcases List.mem_cons.mp hq with rfl | hq
            · obtain ⟨⟨rfl, _⟩, _⟩ : (k = k2 ∧ v = v2) ∧ tl = tl2 := by simpa using hq2
              refine ⟨by simp [hs'], ?_⟩
              by_cases hss : s1 = some (id, k)
              · rw [hs'] at hss
                exact ((by simpa using hss : sid' = id ∧ sk' = k).1).symm
              · exact absurd (hke ▸ (hC2k sid' sk' hs').2 hss) (lt_irrefl sk')
            · exact ⟨by simp [hs'], (C4 q hq k2 v2 tl2 hq2 hke).2⟩
      | some s0 =>
        obtain ⟨sid0, sk0⟩ := s0
        by_cases hlt : k < sk0
        · rcases hrec : Database.mergePass (some (id, k)) rest with ⟨s1, stR⟩
          obtain ⟨rfl, rfl⟩ : s1 = s' ∧ ((id, (k, v) :: tl) :: stR : MergeState) = st' := by
            rw [show Database.mergePass (some (sid0, sk0)) ((id, (k, v) :: tl) :: rest) =
                (if k < sk0 then
                  ((Database.mergePass (some (id, k)) rest).1,
                    (id, (k, v) :: tl) :: (Database.mergePass (some (id, k)) rest).2)
                 else if k = sk0 then
                  ((Database.mergePass (some (sid0, sk0)) rest).1,
                    (id, tl) :: (Database.mergePass (some (sid0, sk0)) rest).2)
                 else
                  ((Database.mergePass (some (sid0, sk0)) rest).1,
                    (id, (k, v) :: tl) :: (Database.mergePass (some (sid0, sk0)) rest).2)) from rfl,
              if_pos hlt, hrec] at hpass
            exact ⟨congrArg Prod.fst hpass, congrArg Prod.snd hpass⟩
          obtain ⟨A, B, C⟩ := ih (some (id, k)) s1 stR hrec hids' hsort'
          have hC2k : ∀ sid' sk', s1 = some (sid', sk') →
              sk' ≤ k ∧ (s1 ≠ some (id, k) → sk' < k) :=
            fun sid' sk' hs' => (C sid' sk' hs').2.1 id k rfl
          refine ⟨?_, ?_, ?_⟩
          · rw [show ((id, (k, v) :: tl) :: rest).filter (fun p => !p.2.isEmpty) =
                (id, (k, v) :: tl) :: rest.filter (fun p => !p.2.isEmpty) from by
              simp [List.filter_cons]]
            refine List.Forall₂.cons ⟨rfl, Or.inl rfl⟩ ?_
            refine forall₂_imp_mem A ?_
            rintro a ha b _ ⟨hfst, hcont⟩
            refine ⟨hfst, ?_⟩
            rcases hcont with h | ⟨kv2, tl2, hp2, hq2, hpop⟩
            · exact Or.inl h
            · refine Or.inr ⟨kv2, tl2, hp2, hq2, ?_⟩
              rcases hpop with ⟨sid1, hs1⟩ | ⟨q', hq', hgt, kv', tl', hq'2, hk'⟩
              · obtain ⟨h1, h2⟩ : id = sid1 ∧ k = kv2.1 := by simpa using hs1
                exact Or.inr ⟨(id, (k, v) :: tl), by simp,
                  hid_gt a (List.mem_of_mem_filter ha), (k, v), tl, rfl, h2⟩
              · exact Or.inr ⟨q', by simp [hq'], hgt, kv', tl', hq'2, hk'⟩
          · intro h
            exact absurd (B h) (by simp)
          · intro sid' sk' hs'
            obtain ⟨C1, C2, C3, C4⟩ := C sid' sk' hs'
            have hk'le : sk' ≤ k := (hC2k sid' sk' hs').1
            have hk'lt0 : sk' < sk0 := lt_of_le_of_lt hk'le hlt
            refine ⟨?_, ?_, ?_, ?_⟩
            · rcases C1 with heq | ⟨v', tl', hmem⟩
              · obtain ⟨rfl, rfl⟩ : sid' = id ∧ sk' = k := by simpa using heq.symm
                exact Or.inr ⟨v, tl, by simp⟩
              · exact Or.inr ⟨v', tl', by simp [hmem]⟩
            · intro sid1 sk1 h1
              obtain ⟨rfl, rfl⟩ : sid0 = sid1 ∧ sk0 = sk1 := by simpa using h1
              exact ⟨le_of_lt hk'lt0, fun _ => hk'lt0⟩
            · intro p hp k2 v2 tl2 hp2
              rcases List.mem_cons.mp hp with rfl | hp
              · obtain ⟨⟨rfl, _⟩, _⟩ : (k = k2 ∧ v = v2) ∧ tl = tl2 := by simpa using hp2
                exact hk'le
              · exact C3 p hp k2 v2 tl2 hp2
            · intro q hq k2 v2 tl2 hq2 hke
              have hne : (some (sid', sk') : Option (Nat × Bytes)) ≠ some (sid0, sk0) := by
                intro hc
                obtain ⟨_, h2⟩ : sid' = sid0 ∧ sk' = sk0 := by simpa using hc
                exact absurd (h2 ▸ hk'lt0) (lt_irrefl sk0)
              rcases List.mem_cons.mp hq with rfl | hq
              · obtain ⟨⟨rfl, _⟩, _⟩ : (k = k2 ∧ v = v2) ∧ tl = tl2 := by simpa using hq2
                refine ⟨hs' ▸ hne, ?_⟩
                by_cases hss : s1 = some (id, k)
                · rw [hs'] at hss
                  exact ((by simpa using hss : sid' = id ∧ sk' = k).1).symm
                · exact absurd (hke ▸ (hC2k sid' sk' hs').2 hss) (lt_irrefl sk')
              · exact ⟨hs' ▸ hne, (C4 q hq k2 v2 tl2 hq2 hke).2⟩
        · by_cases heq : k = sk0
          · rcases hrec : Database.mergePass (some (sid0, sk0)) rest with ⟨s1, stR⟩
            obtain ⟨rfl, rfl⟩ : s1 = s' ∧ ((id, tl) :: stR : MergeState) = st' := by
              rw [show Database.mergePass (some (sid0, sk0)) ((id, (k, v) :: tl) :: rest) =
                  (if k < sk0 then
                    ((Database.mergePass (some (id, k)) rest).1,
                      (id, (k, v) :: tl) :: (Database.mergePass (some (id, k)) rest).2)
                   else if k = sk0 then
                    ((Database.mergePass (some (sid0, sk0)) rest).1,
                      (id, tl) :: (Database.mergePass (some (sid0, sk0)) rest).2)
                   else
                    ((Database.mergePass (some (sid0, sk0)) rest).1,
                      (id, (k, v) :: tl) :: (Database.mergePass (some (sid0, sk0)) rest).2)) from rfl,
                if_neg hlt, if_pos heq, hrec] at hpass
              exact ⟨congrArg Prod.fst hpass, congrArg Prod.snd hpass⟩
            obtain ⟨A, B, C⟩ := ih (some (sid0, sk0)) s1 stR hrec hids' hsort'
            have hsort1 : ∀ kv2 ∈ tl, k < kv2.1 :=
              ((sortedKeys_cons_iff k v tl).mp (hsort (id, (k, v) :: tl) (by simp))).1
            refine ⟨?_, B, ?_⟩
            · rw [show ((id, (k, v) :: tl) :: rest).filter (fun p => !p.2.isEmpty) =
                  (id, (k, v) :: tl) :: rest.filter (fun p => !p.2.isEmpty) from by
                simp [List.filter_cons]]
              refine List.Forall₂.cons
                ⟨rfl, Or.inr ⟨(k, v), tl, rfl, rfl, Or.inl ⟨sid0, by rw [heq]⟩⟩⟩ ?_
              refine forall₂_imp_mem A ?_
              rintro a ha b _ ⟨hfst, hcont⟩
              refine ⟨hfst, ?_⟩
              rcases hcont with h | ⟨kv2, tl2, hp2, hq2, hpop⟩
              · exact Or.inl h
              · refine Or.inr ⟨kv2, tl2, hp2, hq2, ?_⟩
                rcases hpop with ⟨sid1, hs1⟩ | ⟨q', hq', hgt, kv', tl', hq'2, hk'⟩
                · exact Or.inl ⟨sid1, hs1⟩
                · exact Or.inr ⟨q', by simp [hq'], hgt, kv', tl', hq'2, hk'⟩
            · intro sid' sk' hs'
              obtain ⟨C1, C2, C3, C4⟩ := C sid' sk' hs'
              have hle0 : sk' ≤ sk0 := (C2 sid0 sk0 rfl).1
              refine ⟨?_, C2, ?_, ?_⟩
              · rcases C1 with h | ⟨v', tl', hmem⟩
                · exact Or.inl h
                · exact Or.inr ⟨v', tl', by simp [hmem]⟩
              · intro p hp k2 v2 tl2 hp2
                rcases List.mem_cons.mp hp with rfl | hp
                · obtain ⟨⟨rfl, _⟩, _⟩ : (k = k2 ∧ v = v2) ∧ tl = tl2 := by simpa using hp2
                  exact heq ▸ hle0
                · exact C3 p hp k2 v2 tl2 hp2
              · intro q hq k2 v2 tl2 hq2 hke
                rcases List.mem_cons.mp hq with rfl | hq
                · have hk2tl : (k2, v2) ∈ tl := by
                    rw [show (id, tl).2 = tl from rfl] at hq2
                    rw [hq2]
                    simp
                  have : k < k2 := hsort1 (k2, v2) hk2tl
                  rw [hke, heq] at this
                  exact absurd (lt_of_le_of_lt hle0 this) (lt_irrefl sk')
                · exact C4 q hq k2 v2 tl2 hq2 hke
          · rcases hrec : Database.mergePass (some (sid0, sk0)) rest with ⟨s1, stR⟩
            obtain ⟨rfl, rfl⟩ : s1 = s' ∧ ((id, (k, v) :: tl) :: stR : MergeState) = st' := by
              rw [show Database.mergePass (some (sid0, sk0)) ((id, (k, v) :: tl) :: rest) =
                  (if k < sk0 then
                    ((Database.mergePass (some (id, k)) rest).1,
                      (id, (k, v) :: tl) :: (Database.mergePass (some (id, k)) rest).2)
                   else if k = sk0 then
                    ((Database.mergePass (some (sid0, sk0)) rest).1,
                      (id, tl) :: (Database.mergePass (some (sid0, sk0)) rest).2)
                   else
                    ((Database.mergePass (some (sid0, sk0)) rest).1,
                      (id, (k, v) :: tl) :: (Database.mergePass (some (sid0, sk0)) rest).2)) from rfl,
                if_neg hlt, if_neg heq, hrec] at hpass
              exact ⟨congrArg Prod.fst hpass, congrArg Prod.snd hpass⟩
            have hgt0 : sk0 < k := lt_of_le_of_ne (le_of_not_lt hlt) (Ne.symm heq)
            obtain ⟨A, B, C⟩ := ih (some (sid0, sk0)) s1 stR hrec hids' hsort'
            refine ⟨?_, B, ?_⟩
            · rw [show ((id, (k, v) :: tl) :: rest).filter (fun p => !p.2.isEmpty) =
                  (id, (k, v) :: tl) :: rest.filter (fun p => !p.2.isEmpty) from by
                simp [List.filter_cons]]
              refine List.Forall₂.cons ⟨rfl, Or.inl rfl⟩ ?_
              refine forall₂_imp_mem A ?_
              rintro a ha b _ ⟨hfst, hcont⟩
              refine ⟨hfst, ?_⟩
              rcases hcont with h | ⟨kv2, tl2, hp2, hq2, hpop⟩
              · exact Or.inl h
              · refine Or.inr ⟨kv2, tl2, hp2, hq2, ?_⟩
                rcases hpop with ⟨sid1, hs1⟩ | ⟨q', hq', hgt, kv', tl', hq'2, hk'⟩
                · exact Or.inl ⟨sid1, hs1⟩
                · exact Or.inr ⟨q', by simp [hq'], hgt, kv', tl', hq'2, hk'⟩
            · intro sid' sk' hs'
              obtain ⟨C1, C2, C3, C4⟩ := C sid' sk' hs'
              have hle0 : sk' ≤ sk0 := (C2 sid0 sk0 rfl).1
              refine ⟨?_, C2, ?_, ?_⟩
              · rcases C1 with h | ⟨v', tl', hmem⟩
                · exact Or.inl h
                · exact Or.inr ⟨v', tl', by simp [hmem]⟩
              · intro p hp k2 v2 tl2 hp2
                rcases List.mem_cons.mp hp with rfl | hp
                · obtain ⟨⟨rfl, _⟩, _⟩ : (k = k2 ∧ v = v2) ∧ tl = tl2 := by simpa using hp2
                  exact le_of_lt (lt_of_le_of_lt hle0 hgt0)
                · exact C3 p hp k2 v2 tl2 hp2
              · intro q hq k2 v2 tl2 hq2 hke
                rcases List.mem_cons.mp hq with rfl | hq
                · obtain ⟨⟨rfl, _⟩, _⟩ : (k = k2 ∧ v = v2) ∧ tl = tl2 := by simpa using hq2
                  rw [hke] at hgt0
                  exact absurd (lt_of_le_of_lt hle0 hgt0) (lt_irrefl sk')
                · exact C4 q hq k2 v2 tl2 hq2 hke

/-! ### Unfolding lemmas for `mergePass` -/

theorem mergePass_nil (s : Option (Nat × Bytes)) : Database.mergePass s [] = (s, []) := rfl

theorem mergePass_cons_empty (s : Option (Nat × Bytes)) (id : Nat) (rest : MergeState) :
    Database.mergePass s ((id, ([] : SegRecords)) :: rest) = Database.mergePass s rest := rfl

theorem mergePass_cons_none (id : Nat) (k v : Bytes) (tl : SegRecords) (rest : MergeState) :
    Database.mergePass none ((id, (k, v) :: tl) :: rest) =
      ((Database.mergePass (some (id, k)) rest).1,
        (id, (k, v) :: tl) :: (Database.mergePass (some (id, k)) rest).2) := rfl

theorem mergePass_cons_some (sid0 : Nat) (sk0 : Bytes) (id : Nat) (k v : Bytes)
    (tl : SegRecords) (rest : MergeState) :
    Database.mergePass (some (sid0, sk0)) ((id, (k, v) :: tl) :: rest) =
      if k < sk0 then
        ((Database.mergePass (some (id, k)) rest).1,
          (id, (k, v) :: tl) :: (Database.mergePass (some (id, k)) rest).2)
      else if k = sk0 then
        ((Database.mergePass (some (sid0, sk0)) rest).1,
          (id, tl) :: (Database.mergePass (some (sid0, sk0)) rest).2)
      else
        ((Database.mergePass (some (sid0, sk0)) rest).1,
          (id, (k, v) :: tl) :: (Database.mergePass (some (sid0, sk0)) rest).2) := rfl

/-- Once the pass has seen a nonempty reader the running smallest never
returns to `none`. -/
theorem mergePass_some_fst :
    ∀ (st : MergeState) (x : Nat × Bytes), ∃ y, (Database.mergePass (some x) st).1 = some y := by
  intro st
  induction st with
  | nil => intro x; exact ⟨x, rfl⟩
  | cons p rest ih =>
    obtain ⟨id, l⟩ := p
    intro x
    cases l with
    | nil => exact ih x
    | cons kv tl =>
      obtain ⟨k, v⟩ := kv
      obtain ⟨sid, sk⟩ := x
      rw [mergePass_cons_some]
      by_cases h1 : k < sk
      · obtain ⟨y, hy⟩ := ih (id, k)
        exact ⟨y, by rw [if_pos h1]; exact hy⟩
      · by_cases h2 : k = sk
        · obtain ⟨y, hy⟩ := ih (sid, sk)
          exact ⟨y, by rw [if_neg h1, if_pos h2]; exact hy⟩
        · obtain ⟨y, hy⟩ := ih (sid, sk)
          exact ⟨y, by rw [if_neg h1, if_neg h2]; exact hy⟩

/-- When the pass finds no smallest key, the accumulator was empty and
every reader is exhausted (so the merge loop stops). -/
theorem mergePass_none_char :
    ∀ (st : MergeState) (s : Option (Nat × Bytes)) (st' : MergeState),
      Database.mergePass s st = (none, st') →
      s = none ∧ st' = [] ∧ ∀ p ∈ st, p.2 = [] := by
  intro st
  induction st with
  | nil =>
    intro s st' hpass
    obtain ⟨h1, h2⟩ : s = none ∧ ([] : MergeState) = st' := by
      simpa [mergePass_nil] using hpass
    exact ⟨h1, h2.symm, by simp⟩
  | cons p rest ih =>
    obtain ⟨id, l⟩ := p
    intro s st' hpass
    cases l with
    | nil =>
      rw [mergePass_cons_empty] at hpass
      obtain ⟨h1, h2, h3⟩ := ih s st' hpass
      refine ⟨h1, h2, ?_⟩
      intro p hp
      rcases List.mem_cons.mp hp with rfl | hp
      · rfl
      · exact h3 p hp
    | cons kv tl =>
      obtain ⟨k, v⟩ := kv
      exfalso
      cases s with
      | none =>
        rw [mergePass_cons_none] at hpass
        obtain ⟨y, hy⟩ := mergePass_some_fst rest (id, k)
        have h1 : (Database.mergePass (some (id, k)) rest).1 = none :=
          congrArg Prod.fst hpass
        rw [hy] at h1
        exact Option.noConfusion h1
      | some s0 =>
        obtain ⟨sid0, sk0⟩ := s0
        rw [mergePass_cons_some] at hpass
        by_cases h1 : k < sk0
        · rw [if_pos h1] at hpass
          obtain ⟨y, hy⟩ := mergePass_some_fst rest (id, k)
          have h2 : (Database.mergePass (some (id, k)) rest).1 = none :=
            congrArg Prod.fst hpass
          rw [hy] at h2
          exact Option.noConfusion h2
        · by_cases h2 : k = sk0
          · rw [if_neg h1, if_pos h2] at hpass
            obtain ⟨y, hy⟩ := mergePass_some_fst rest (sid0, sk0)
            have h3 : (Database.mergePass (some (sid0, sk0)) rest).1 = none :=
              congrArg Prod.fst hpass
            rw [hy] at h3
            exact Option.noConfusion h3
          · rw [if_neg h1, if_neg h2] at hpass
            obtain ⟨y, hy⟩ := mergePass_some_fst rest (sid0, sk0)
            have h3 : (Database.mergePass (some (sid0, sk0)) rest).1 = none :=
              congrArg Prod.fst hpass
            rw [hy] at h3
            exact Option.noConfusion h3

theorem lookupNewest_cons_found {id : Nat} {l : SegRecords} {rest : MergeState}
    {key w : Bytes} (h : assocFind l key = some w) :
    lookupNewest ((id, l) :: rest) key = some w := by
  rw [lookupNewest_cons, h]

theorem lookupNewest_cons_miss {id : Nat} {l : SegRecords} {rest : MergeState}
    {key : Bytes} (h : assocFind l key = none) :
    lookupNewest ((id, l) :: rest) key = lookupNewest rest key := by
  rw [lookupNewest_cons, h]

theorem assocFind_eq_none_of_lt_min (k v : Bytes) (tl : SegRecords) (key : Bytes)
    (hsort : sortedKeys ((k, v) :: tl)) (hlt : key < k) :
    assocFind ((k, v) :: tl) key = none := by
  rw [assocFind_eq_none_iff]
  intro kv hkv
  rcases List.mem_cons.mp hkv with rfl | hkv
  · intro h
    simp only at h
    rw [h] at hlt
    exact absurd hlt (lt_irrefl key)
  · have hk := ((sortedKeys_cons_iff k v tl).mp hsort).1 kv hkv
    intro h
    rw [h] at hk
    exact absurd (lt_trans hlt hk) (lt_irrefl key)

/-- When the pass finds its smallest in the state (rather than keeping the
accumulator it was called with), the smallest reader's head is intact in
the output and its head value is exactly the newest-first lookup of the
smallest key in the input state. -/
theorem mergePass_value :
    ∀ (st : MergeState) (s : Option (Nat × Bytes)) (sid' : Nat) (sk' : Bytes)
      (st' : MergeState),
      Database.mergePass s st = (some (sid', sk'), st') →
      (st.map Prod.fst).Pairwise (· > ·) →
      (∀ p ∈ st, sortedKeys p.2) →
      some (sid', sk') ≠ s →
      ∃ v tl, (sid', ((sk', v) :: tl : SegRecords)) ∈ st' ∧
        lookupNewest st sk' = some v := by
  intro st
  induction st with
  | nil =>
    intro s sid' sk' st' hpass _ _ hne
    obtain ⟨h1, _⟩ : s = some (sid', sk') ∧ ([] : MergeState) = st' := by
      simpa [mergePass_nil] using hpass
    exact absurd h1.symm hne
  | cons p rest ih =>
    obtain ⟨id, l⟩ := p
    intro s sid' sk' st' hpass hids hsort hne
    have hids2 : (id :: rest.map Prod.fst).Pairwise (· > ·) := by simpa using hids
    have hids' : (rest.map Prod.fst).Pairwise (· > ·) := (List.pairwise_cons.mp hids2).2
    have hsort' : ∀ p ∈ rest, sortedKeys p.2 := fun p hp => hsort p (by simp [hp])
    cases l with
    | nil =>
      rw [mergePass_cons_empty] at hpass
      obtain ⟨v, tl, hmem, hlook⟩ := ih s sid' sk' st' hpass hids' hsort' hne
      exact ⟨v, tl, hmem, (lookupNewest_cons_miss (assocFind_nil sk')).trans hlook⟩
    | cons kv tl =>
      obtain ⟨k, v0⟩ := kv
      have hsort0 : sortedKeys ((k, v0) :: tl) := hsort (id, (k, v0) :: tl) (by simp)
      cases s with
      | none =>
        rw [mergePass_cons_none] at hpass
        rcases hrec : Database.mergePass (some (id, k)) rest with ⟨s1, stR⟩
        rw [hrec] at hpass
        have h1 : s1 = some (sid', sk') := congrArg Prod.fst hpass
        have h2 : ((id, (k, v0) :: tl) :: stR : MergeState) = st' := congrArg Prod.snd hpass
        subst h2
        by_cases hcase : (some (sid', sk') : Option (Nat × Bytes)) = some (id, k)
        · obtain ⟨hid, hk⟩ : sid' = id ∧ sk' = k := by simpa using hcase
          subst hid; subst hk
          exact ⟨v0, tl, by simp,
            lookupNewest_cons_found (by rw [assocFind_cons, if_pos rfl])⟩
        · obtain ⟨v, tl2, hmem, hlook⟩ := ih (some (id, k)) sid' sk' stR (h1 ▸ hrec)
            hids' hsort' hcase
          have hmaster := mergePass_master rest (some (id, k)) (some (sid', sk')) stR
            (h1 ▸ hrec) hids' hsort'
          have hstrict : sk' < k := ((hmaster.2.2 sid' sk' rfl).2.1 id k rfl).2 hcase
          exact ⟨v, tl2, by simp [hmem],
            (lookupNewest_cons_miss
              (assocFind_eq_none_of_lt_min k v0 tl sk' hsort0 hstrict)).trans hlook⟩
      | some s0 =>
        obtain ⟨sid0, sk0⟩ := s0
        rw [mergePass_cons_some] at hpass
        by_cases hlt : k < sk0
        · rw [if_pos hlt] at hpass
          rcases hrec : Database.mergePass (some (id, k)) rest with ⟨s1, stR⟩
          rw [hrec] at hpass
          have h1 : s1 = some (sid', sk') := congrArg Prod.fst hpass
          have h2 : ((id, (k, v0) :: tl) :: stR : MergeState) = st' := congrArg Prod.snd hpass
          subst h2
          by_cases hcase : (some (sid', sk') : Option (Nat × Bytes)) = some (id, k)
          · obtain ⟨hid, hk⟩ : sid' = id ∧ sk' = k := by simpa using hcase
            subst hid; subst hk
            exact ⟨v0, tl, by simp,
              lookupNewest_cons_found (by rw [assocFind_cons, if_pos rfl])⟩
          · obtain ⟨v, tl2, hmem, hlook⟩ := ih (some (id, k)) sid' sk' stR (h1 ▸ hrec)
              hids' hsort' hcase
            have hmaster := mergePass_master rest (some (id, k)) (some (sid', sk')) stR
              (h1 ▸ hrec) hids' hsort'
            have hstrict : sk' < k := ((hmaster.2.2 sid' sk' rfl).2.1 id k rfl).2 hcase
            exact ⟨v, tl2, by simp [hmem],
              (lookupNewest_cons_miss
                (assocFind_eq_none_of_lt_min k v0 tl sk' hsort0 hstrict)).trans hlook⟩
        · by_cases heqk : k = sk0
          · rw [if_neg hlt, if_pos heqk] at hpass
            rcases hrec : Database.mergePass (some (sid0, sk0)) rest with ⟨s1, stR⟩
            rw [hrec] at hpass
            have h1 : s1 = some (sid', sk') := congrArg Prod.fst hpass
            have h2 : ((id, tl) :: stR : MergeState) = st' := congrArg Prod.snd hpass
            subst h2
            obtain ⟨v, tl2, hmem, hlook⟩ := ih (some (sid0, sk0)) sid' sk' stR (h1 ▸ hrec)
              hids' hsort' hne
            have hmaster := mergePass_master rest (some (sid0, sk0)) (some (sid', sk')) stR
              (h1 ▸ hrec) hids' hsort'
            have hstrict : sk' < sk0 := ((hmaster.2.2 sid' sk' rfl).2.1 sid0 sk0 rfl).2 hne
            exact ⟨v, tl2, by simp [hmem],
              (lookupNewest_cons_miss
                (assocFind_eq_none_of_lt_min k v0 tl sk' hsort0 (heqk ▸ hstrict))).trans hlook⟩
          · rw [if_neg hlt, if_neg heqk] at hpass
            rcases hrec : Database.mergePass (some (sid0, sk0)) rest with ⟨s1, stR⟩
            rw [hrec] at hpass
            have h1 : s1 = some (sid', sk') := congrArg Prod.fst hpass
            have h2 : ((id, (k, v0) :: tl) :: stR : MergeState) = st' := congrArg Prod.snd hpass
            subst h2
            obtain ⟨v, tl2, hmem, hlook⟩ := ih (some (sid0, sk0)) sid' sk' stR (h1 ▸ hrec)
              hids' hsort' hne
            have hmaster := mergePass_master rest (some (sid0, sk0)) (some (sid', sk')) stR
              (h1 ▸ hrec) hids' hsort'
            have hle : sk' ≤ sk0 := ((hmaster.2.2 sid' sk' rfl).2.1 sid0 sk0 rfl).1
            have hgt0 : sk0 < k := lt_of_le_of_ne (le_of_not_lt hlt) (Ne.symm heqk)
            exact ⟨v, tl2, by simp [hmem],
              (lookupNewest_cons_miss
                (assocFind_eq_none_of_lt_min k v0 tl sk' hsort0
                  (lt_of_le_of_lt hle hgt0))).trans hlook⟩

/-- One pass changes the newest-first lookup of no key other than the one
it selects (and, on key equality, skips). -/
theorem mergePass_preserve :
    ∀ (st : MergeState) (s s' : Option (Nat × Bytes)) (st' : MergeState),
      Database.mergePass s st = (s', st') →
      ∀ key : Bytes, (∀ sid0 sk0, s = some (sid0, sk0) → key ≠ sk0) →
        (∀ sid1 sk1, s' = some (sid1, sk1) → key ≠ sk1) →
        lookupNewest st' key = lookupNewest st key := by
  intro st
  induction st with
  | nil =>
    intro s s' st' hpass key _ _
    obtain ⟨_, h2⟩ : s = s' ∧ ([] : MergeState) = st' := by
      simpa [mergePass_nil] using hpass
    rw [← h2]
  | cons p rest ih =>
    obtain ⟨id, l⟩ := p
    intro s s' st' hpass key hks hks'
    cases l with
    | nil =>
      rw [mergePass_cons_empty] at hpass
      rw [ih s s' st' hpass key hks hks', lookupNewest_cons_miss (assocFind_nil key)]
    | cons kv tl =>
      obtain ⟨k, v0⟩ := kv
      cases s with
      | none =>
        rw [mergePass_cons_none] at hpass
        rcases hrec : Database.mergePass (some (id, k)) rest with ⟨s1, stR⟩
        rw [hrec] at hpass
        have h1 : s1 = s' := congrArg Prod.fst hpass
        have h2 : ((id, (k, v0) :: tl) :: stR : MergeState) = st' := congrArg Prod.snd hpass
        subst h2
        cases hf : assocFind ((k, v0) :: tl) key with
        | some w => rw [lookupNewest_cons_found hf, lookupNewest_cons_found hf]
        | none =>
          rw [lookupNewest_cons_miss hf, lookupNewest_cons_miss hf]
          refine ih (some (id, k)) s' stR (h1 ▸ hrec) key ?_ hks'
          intro sid0 sk0 h0
          obtain ⟨_, hk⟩ : id = sid0 ∧ k = sk0 := by simpa using h0
          rw [assocFind_eq_none_iff] at hf
          exact fun hc => hf (k, v0) (by simp) (by rw [hk, ← hc])
      | some s0 =>
        obtain ⟨sid0, sk0⟩ := s0
        rw [mergePass_cons_some] at hpass
        by_cases hlt : k < sk0
        · rw [if_pos hlt] at hpass
          rcases hrec : Database.mergePass (some (id, k)) rest with ⟨s1, stR⟩
          rw [hrec] at hpass
          have h1 : s1 = s' := congrArg Prod.fst hpass
          have h2 : ((id, (k, v0) :: tl) :: stR : MergeState) = st' := congrArg Prod.snd hpass
          subst h2
          cases hf : assocFind ((k, v0) :: tl) key with
          | some w => rw [lookupNewest_cons_found hf, lookupNewest_cons_found hf]
          | none =>
            rw [lookupNewest_cons_miss hf, lookupNewest_cons_miss hf]
            refine ih (some (id, k)) s' stR (h1 ▸ hrec) key ?_ hks'
            intro sid1 sk1 h0
            obtain ⟨_, hk⟩ : id = sid1 ∧ k = sk1 := by simpa using h0
            rw [assocFind_eq_none_iff] at hf
            exact fun hc => hf (k, v0) (by simp) (by rw [hk, ← hc])
        · by_cases heqk : k = sk0
          · rw [if_neg hlt, if_pos heqk] at hpass
            rcases hrec : Database.mergePass (some (sid0, sk0)) rest with ⟨s1, stR⟩
            rw [hrec] at hpass
            have h1 : s1 = s' := congrArg Prod.fst hpass
            have h2 : ((id, tl) :: stR : MergeState) = st' := congrArg Prod.snd hpass
            subst h2
            have hkne : k ≠ key := by
              intro hc
              exact hks sid0 sk0 rfl (by rw [← hc, heqk])
            have hsplit : assocFind ((k, v0) :: tl) key = assocFind tl key := by
              rw [assocFind_cons, if_neg hkne]
            cases hf : assocFind tl key with
            | some w =>
              rw [lookupNewest_cons_found hf, lookupNewest_cons_found (hsplit.trans hf)]
            | none =>
              rw [lookupNewest_cons_miss hf, lookupNewest_cons_miss (hsplit.trans hf)]
              exact ih (some (sid0, sk0)) s' stR (h1 ▸ hrec) key hks hks'
          · rw [if_neg hlt, if_neg heqk] at hpass
            rcases hrec : Database.mergePass (some (sid0, sk0)) rest with ⟨s1, stR⟩
            rw [hrec] at hpass
            have h1 : s1 = s' := congrArg Prod.fst hpass
            have h2 : ((id, (k, v0) :: tl) :: stR : MergeState) = st' := congrArg Prod.snd hpass
            subst h2
            cases hf : assocFind ((k, v0) :: tl) key with
            | some w => rw [lookupNewest_cons_found hf, lookupNewest_cons_found hf]
            | none =>
              rw [lookupNewest_cons_miss hf, lookupNewest_cons_miss hf]
              exact ih (some (sid0, sk0)) s' stR (h1 ▸ hrec) key hks hks'

/-- A reader present in the state with the target id and a nonempty list
is popped by `emitFrom` when no earlier reader carries that id. -/
theorem emitFrom_cons (qid : Nat) (ql : SegRecords) (rest : MergeState) (sid : Nat) :
    Database.emitFrom ((qid, ql) :: rest) sid =
      if qid = sid then
        match ql with
        | [] => (none, (qid, ql) :: rest)
        | r :: tl => (some r, (qid, tl) :: rest)
      else
        ((Database.emitFrom rest sid).1, (qid, ql) :: (Database.emitFrom rest sid).2) := rfl

theorem emitFrom_split :
    ∀ (l1 : MergeState) (sid : Nat) (r : Bytes × Bytes) (tl : SegRecords) (l2 : MergeState),
      (∀ q ∈ l1, q.1 ≠ sid) →
      Database.emitFrom (l1 ++ (sid, r :: tl) :: l2) sid =
        (some r, l1 ++ (sid, tl) :: l2) := by
  intro l1
  induction l1 with
  | nil =>
    intro sid r tl l2 _
    simp [emitFrom_cons]
  | cons q l1' ih =>
    intro sid r tl l2 hne
    obtain ⟨qid, ql⟩ := q
    have hq : qid ≠ sid := hne (qid, ql) (by simp)
    rw [List.cons_append, emitFrom_cons, if_neg hq,
      ih sid r tl l2 (fun q hq2 => hne q (by simp [hq2]))]
    rfl

theorem sortedKeys_tail {kv : Bytes × Bytes} {tl : SegRecords}
    (h : sortedKeys (kv :: tl)) : sortedKeys tl := by
  obtain ⟨k, v⟩ := kv
  exact ((sortedKeys_cons_iff k v tl).mp h).2

theorem sorted_head_le {k v : Bytes} {tl : SegRecords}
    (h : sortedKeys ((k, v) :: tl)) : ∀ kv ∈ (k, v) :: tl, k ≤ kv.1 := by
  intro kv hkv
  rcases List.mem_cons.mp hkv with rfl | hkv
  · exact le_refl _
  · exact le_of_lt (((sortedKeys_cons_iff k v tl).mp h).1 kv hkv)

theorem totalSize_filter (st : MergeState) :
    Database.totalSize (st.filter fun p => !p.2.isEmpty) = Database.totalSize st := by
  induction st with
  | nil => rfl
  | cons p rest ih =>
    obtain ⟨id, l⟩ := p
    cases l with
    | nil => simpa [List.filter_cons, totalSize_cons] using ih
    | cons kv tl => simp [List.filter_cons, totalSize_cons, ih]

theorem forall₂_totalSize_le :
    ∀ {L M : MergeState},
      List.Forall₂ (fun p q : Nat × SegRecords => q.2.length ≤ p.2.length) L M →
      Database.totalSize M ≤ Database.totalSize L := by
  intro L M h
  induction h with
  | nil => exact le_refl _
  | cons hpq _ ih =>
    rw [totalSize_cons, totalSize_cons]
    omega

/-- One full merge round on a well-formed state: the pass selects the
global minimum key, the emit pops exactly that record from the newest
reader holding it, and the resulting state has lost precisely that key. -/
theorem mergeRound (st : MergeState) (hwf : MergeWF st) (sid : Nat) (sk : Bytes)
    (st1 : MergeState) (hpass : Database.mergePass none st = (some (sid, sk), st1)) :
    ∃ v st2, Database.emitFrom st1 sid = (some (sk, v), st2) ∧
      lookupNewest st sk = some v ∧
      MergeWF st2 ∧
      (∀ key, key ≠ sk → lookupNewest st2 key = lookupNewest st key) ∧
      (∀ q ∈ st2, ∀ kv ∈ q.2, sk < kv.1) ∧
      Database.totalSize st2 < Database.totalSize st := by
  obtain ⟨hids, hsort⟩ := hwf
  obtain ⟨A, _, C⟩ := mergePass_master st none (some (sid, sk)) st1 hpass hids hsort
  obtain ⟨_, _, C3, C4⟩ := C sid sk rfl
  obtain ⟨v, tl, hmem, hlook⟩ :=
    mergePass_value st none sid sk st1 hpass hids hsort (by simp)
  have hfstmap : (st.filter fun p => !p.2.isEmpty).map Prod.fst = st1.map Prod.fst :=
    forall₂_fst_eq A fun a b h => h.1
  have hids1 : (st1.map Prod.fst).Pairwise (· > ·) := by
    rw [← hfstmap]
    exact hids.sublist ((List.filter_sublist st).map Prod.fst)
  have hsort1 : ∀ q ∈ st1, sortedKeys q.2 := by
    intro q hq
    obtain ⟨a, ha, hR⟩ := forall₂_mem_right A q hq
    have hasort := hsort a (List.mem_of_mem_filter ha)
    rcases hR.2 with hsame | ⟨kv0, tl0, hp2, hq2, _⟩
    · rw [hsame]
      exact hasort
    · rw [hq2]
      exact sortedKeys_tail (hp2 ▸ hasort)
  have hgt2 : ∀ q ∈ st1, q.1 ≠ sid → ∀ kv ∈ q.2, sk < kv.1 := by
    intro q hq hqsid kv hkv
    obtain ⟨a, ha, hR⟩ := forall₂_mem_right A q hq
    have hamem : a ∈ st := List.mem_of_mem_filter ha
    have hasort := hsort a hamem
    rcases hR.2 with hsame | ⟨kv0, tl0, hp2, hq2, _⟩
    · cases hl : a.2 with
      | nil =>
        rw [hsame, hl] at hkv
        exact absurd hkv (List.not_mem_nil _)
      | cons kv0 t0 =>
        obtain ⟨k0, v0⟩ := kv0
        have hhead : sk ≤ k0 := C3 a hamem k0 v0 t0 hl
        rcases lt_or_eq_of_le hhead with hlt | heq
        · have hle : k0 ≤ kv.1 := by
            refine sorted_head_le (hl ▸ hasort) kv ?_
            rw [← hl, ← hsame]
            exact hkv
          exact lt_of_lt_of_le hlt hle
        · exfalso
          apply hqsid
          exact (C4 q hq k0 v0 t0 (by rw [hsame, hl]) heq.symm).2
    · obtain ⟨k0, v0⟩ := kv0
      have hhead : sk ≤ k0 := C3 a hamem k0 v0 tl0 hp2
      have hcons : sortedKeys ((k0, v0) :: tl0) := hp2 ▸ hasort
      have hlt : k0 < kv.1 := by
        refine ((sortedKeys_cons_iff k0 v0 tl0).mp hcons).1 kv ?_
        rw [← hq2]
        exact hkv
      exact lt_of_le_of_lt hhead hlt
  obtain ⟨l1, l2, hsplit⟩ := List.append_of_mem hmem
  have hidmap : st1.map Prod.fst = l1.map Prod.fst ++ sid :: l2.map Prod.fst := by
    rw [hsplit]
    simp
  have hids1' : (l1.map Prod.fst ++ sid :: l2.map Prod.fst).Pairwise (· > ·) := by
    rw [← hidmap]
    exact hids1
  have hl1gt : ∀ q ∈ l1, sid < q.1 := by
    intro q hq
    exact (List.pairwise_append.mp hids1').2.2 q.1
      (List.mem_map_of_mem Prod.fst hq) sid (by simp)
  have hl2lt : ∀ q ∈ l2, q.1 < sid := by
    intro q hq
    exact (List.pairwise_cons.mp (List.pairwise_append.mp hids1').2.1).1 q.1
      (List.mem_map_of_mem Prod.fst hq)
  have hemit : Database.emitFrom st1 sid = (some (sk, v), l1 ++ (sid, tl) :: l2) := by
    rw [hsplit]
    exact emitFrom_split l1 sid (sk, v) tl l2 fun q hq => ne_of_gt (hl1gt q hq)
  have hmemst1 : ∀ q, q ∈ l1 ∨ q ∈ l2 → q ∈ st1 := by
    intro q hq
    rw [hsplit]
    rcases hq with hq | hq
    · exact List.mem_append_left _ hq
    · exact List.mem_append_right _ (List.mem_cons_of_mem _ hq)
  have hholder_sorted : sortedKeys ((sk, v) :: tl) := hsort1 (sid, (sk, v) :: tl) hmem
  refine ⟨v, l1 ++ (sid, tl) :: l2, hemit, hlook, ?_, ?_, ?_, ?_⟩
  · constructor
    · have hmap2 : (l1 ++ (sid, tl) :: l2).map Prod.fst =
          l1.map Prod.fst ++ sid :: l2.map Prod.fst := by simp
      rw [hmap2]
      exact hids1'
    · intro q hq
      rcases List.mem_append.mp hq with hq | hq
      · exact hsort1 q (hmemst1 q (Or.inl hq))
      · rcases List.mem_cons.mp hq with rfl | hq
        · exact sortedKeys_tail hholder_sorted
        · exact hsort1 q (hmemst1 q (Or.inr hq))
  · intro key hne
    have h1 : lookupNewest st1 key = lookupNewest st key := by
      refine mergePass_preserve st none (some (sid, sk)) st1 hpass key (by simp) ?_
      intro sid1 sk1 h
      obtain ⟨_, h2⟩ : sid = sid1 ∧ sk = sk1 := by simpa using h
      rw [← h2]
      exact hne
    have h2 : lookupNewest (l1 ++ (sid, tl) :: l2) key =
        lookupNewest (l1 ++ (sid, (sk, v) :: tl) :: l2) key := by
      apply lookupNewest_congr key
      have hrefl : ∀ L : MergeState, List.Forall₂
          (fun p q : Nat × SegRecords => assocFind p.2 key = assocFind q.2 key) L L :=
        fun L => List.forall₂_same.mpr fun a _ => rfl
      refine List.rel_append (hrefl l1) (List.Forall₂.cons ?_ (hrefl l2))
      show assocFind tl key = assocFind ((sk, v) :: tl) key
      rw [assocFind_cons, if_neg fun h => hne h.symm]
    rw [h2, ← hsplit]
    exact h1
  · intro q hq kv hkv
    rcases List.mem_append.mp hq with hq | hq
    · exact hgt2 q (hmemst1 q (Or.inl hq)) (ne_of_gt (hl1gt q hq)) kv hkv
    · rcases List.mem_cons.mp hq with rfl | hq
      · exact ((sortedKeys_cons_iff sk v tl).mp hholder_sorted).1 kv hkv
      · exact hgt2 q (hmemst1 q (Or.inr hq)) (ne_of_lt (hl2lt q hq)) kv hkv
  · have hlen : List.Forall₂ (fun p q : Nat × SegRecords => q.2.length ≤ p.2.length)
        (st.filter fun p => !p.2.isEmpty) st1 := by
      refine forall₂_imp_mem A ?_
      intro a _ b _ h
      rcases h.2 with h2 | ⟨kv2, tl2, hp2, hq2, _⟩
      · rw [h2]
      · rw [hq2, hp2]
        simp
    have h1 : Database.totalSize st1 ≤ Database.totalSize st :=
      le_of_le_of_eq (forall₂_totalSize_le hlen) (totalSize_filter st)
    have h2 : Database.totalSize (l1 ++ (sid, tl) :: l2) + 1 = Database.totalSize st1 := by
      rw [hsplit, totalSize_append, totalSize_append, totalSize_cons, totalSize_cons]
      simp only [List.length_cons]
      omega
    omega

theorem assocFind_ne_none_of_key_mem {l : SegRecords} {key : Bytes}
    (h : key ∈ l.map Prod.fst) : assocFind l key ≠ none := by
  rw [assocFind_ne_none_iff]
  obtain ⟨kv, hkv, hfst⟩ := List.mem_map.mp h
  refine ⟨kv.2, ?_⟩
  rw [← hfst, Prod.mk.eta]
  exact hkv

theorem mergeLoop_unfold (fuel : Nat) (st : MergeState) :
    Database.mergeLoop (fuel + 1) st =
      match Database.mergePass none st with
      | (none, _) => []
      | (some (sid, _), st1) =>
        match Database.emitFrom st1 sid with
        | (some r, st2) => r :: Database.mergeLoop fuel st2
        | (none, st2) => Database.mergeLoop fuel st2 := rfl

theorem mergeLoop_spec :
    ∀ (fuel : Nat) (st : MergeState), MergeWF st → Database.totalSize st < fuel →
      ((Database.mergeLoop fuel st).map Prod.fst).Pairwise (· < ·) ∧
      ∀ key, assocFind (Database.mergeLoop fuel st) key = lookupNewest st key := by
  intro fuel
  induction fuel with
  | zero =>
    intro st _ h
    exact absurd h (by omega)
  | succ fuel ih =>
    intro st hwf hsize
    rcases hpass : Database.mergePass none st with ⟨s1, st1⟩
    cases s1 with
    | none =>
      obtain ⟨_, _, hempty⟩ := mergePass_none_char st none st1 hpass
      have hout : Database.mergeLoop (fuel + 1) st = [] := by
        rw [mergeLoop_unfold, hpass]
      rw [hout]
      refine ⟨by simp, ?_⟩
      intro key
      rw [assocFind_nil]
      refine ((lookupNewest_eq_none_iff st key).mpr ?_).symm
      intro p hp
      rw [hempty p hp]
      exact assocFind_nil key
    | some s0 =>
      obtain ⟨sid, sk⟩ := s0
      obtain ⟨v, st2, hemit, hlook, hwf2, hpres, hgt, hless⟩ :=
        mergeRound st hwf sid sk st1 hpass
      have hout : Database.mergeLoop (fuel + 1) st =
          (sk, v) :: Database.mergeLoop fuel st2 := by
        rw [mergeLoop_unfold, hpass]
        show (match Database.emitFrom st1 sid with
          | (some r, st2) => r :: Database.mergeLoop fuel st2
          | (none, st2) => Database.mergeLoop fuel st2) = _
        rw [hemit]
      obtain ⟨ihs, ihl⟩ := ih st2 hwf2 (by omega)
      rw [hout]
      constructor
      · rw [List.map_cons, List.pairwise_cons]
        refine ⟨?_, ihs⟩
        intro b hb
        have h1 : assocFind (Database.mergeLoop fuel st2) b ≠ none :=
          assocFind_ne_none_of_key_mem hb
        rw [ihl b] at h1
        have h2 : ¬ ∀ p ∈ st2, assocFind p.2 b = none := fun hall =>
          h1 ((lookupNewest_eq_none_iff st2 b).mpr hall)
        push_neg at h2
        obtain ⟨p, hp, hpf⟩ := h2
        obtain ⟨w', hw'⟩ := (assocFind_ne_none_iff _ _).mp hpf
        exact hgt p hp (b, w') hw'
      · intro key
        rw [assocFind_cons]
        by_cases hk : sk = key
        · rw [if_pos hk, ← hk, hlook]
        · rw [if_neg hk, ihl key, hpres key fun h => hk h.symm]

theorem merge_segments_spec (st : MergeState) (hwf : MergeWF st) :
    ((Database.merge_segments st).map Prod.fst).Pairwise (· < ·) ∧
    ∀ key, assocFind (Database.merge_segments st) key = lookupNewest st key :=
  mergeLoop_spec (Database.totalSize st + 1) st hwf (by omega)

/-- C4 (amended).  For a collection of two or more segment record streams,
ids strictly descending and each stream in strictly ascending unique key
order, one merge cycle writes exactly one record per distinct key, in
strictly ascending key order, and for each key the value comes from the
stream with the largest id containing that key — so a lookup *over the
record contents* is the same before and after compaction.  (Point lookups
through `Segment::get` may still differ across a compaction because keys
preceding the first sparse-index entry are unreachable; see the
counterexample and C1.) -/
theorem merge_one_record_per_key_newest_wins (st : MergeState)
    (_hlen : 2 ≤ st.length)
    (hids : (st.map Prod.fst).Pairwise (· > ·))
    (hsorted : ∀ p ∈ st, sortedKeys p.2) :
    ((Database.merge_segments st).map Prod.fst).Pairwise (· < ·) ∧
    ∀ key, assocFind (Database.merge_segments st) key = lookupNewest st key :=
  merge_segments_spec st ⟨hids, hsorted⟩

/-- Witness for C4's amended theorem on two concrete segments sharing
key `[97]`. -/
theorem merge_one_record_per_key_newest_wins_witness :
    ((Database.merge_segments
        [(2, [([97], [49]), ([98], [50])]), (1, [([97], [51])])]).map Prod.fst).Pairwise
      (· < ·) ∧
    ∀ key, assocFind
        (Database.merge_segments [(2, [([97], [49]), ([98], [50])]), (1, [([97], [51])])]) key =
      lookupNewest [(2, [([97], [49]), ([98], [50])]), (1, [([97], [51])])] key :=
  merge_one_record_per_key_newest_wins
    [(2, [([97], [49]), ([98], [50])]), (1, [([97], [51])])]
    (by decide) (by decide) (by decide)

end Nouzdb
